import Mathlib

/-!
# Verification of the `mm.c` next-fit memory allocator

A shallow embedding of `src/mm.c` (the 02335 memory-management assignment):
the arena is modelled as a map from addresses (`Nat`) to the raw 64-bit word
stored in a block header, with the free flag packed into bit 0 of the `next`
field exactly as the C macros do.  All `uintptr_t`/`size_t` arithmetic is done
in `Nat` with explicit reduction modulo `2^64` where the C code can wrap.

The target machine is 64-bit: `sizeof(BlockHeader) = sizeof(uintptr_t) = 8`,
`instructionSetBits = 64`.
-/

set_option maxHeartbeats 1000000
set_option maxRecDepth 4096

namespace MM

/-- `2^64`: all `uintptr_t` / `size_t` arithmetic in `mm.c` is modulo this. -/
def M : Nat := 2 ^ 64

/-- 64-bit wrapping subtraction `a - b` (two's complement), as in `size_t`
arithmetic. -/
def sub64 (a b : Nat) : Nat := (a % M + (M - b % M)) % M

/-- `GET_NEXT(p)` (mm.c line 21): mask out the free flag (bit 0) of the stored
`next` word. -/
def GET_NEXT (w : Nat) : Nat := w - w % 2

/-- `GET_FREE(p)` (mm.c line 23): bit 0 of the stored `next` word. -/
def GET_FREE (w : Nat) : Nat := w % 2

/-- `SET_NEXT(p,n)` (mm.c line 22): store `n` with its bit 0 masked off,
preserving the old free flag. -/
def SET_NEXT (w n : Nat) : Nat := (n - n % 2) + w % 2

/-- `SET_FREE(p,f)` (mm.c line 24): keep the masked next, set bit 0 to `f`. -/
def SET_FREE (w : Nat) (f : Bool) : Nat := (w - w % 2) + (if f then 1 else 0)

/-- `MIN_SIZE` (mm.c line 26). -/
def MIN_SIZE : Nat := 8

/-- `sizeof(BlockHeader)`: one 64-bit pointer (the `uint64_t user_block[0]`
flexible member contributes nothing). -/
def hdrSize : Nat := 8

/-- The allocator state: the raw memory (header word stored at each address)
and the three globals `first`, `current`, `last` of mm.c, with `0` playing the
role of `NULL`. -/
structure MMState where
  mem : Nat → Nat
  first : Nat
  current : Nat
  last : Nat

/-- Point update of the memory. -/
def update (m : Nat → Nat) (a v : Nat) : Nat → Nat :=
  fun x => if x = a then v else m x

/-- `SIZE(p)` (mm.c line 25): `(size_t)((uintptr_t)GET_NEXT(p) - (uintptr_t)p
- sizeof(BlockHeader))`, a wrapping 64-bit subtraction. -/
def SIZE (mem : Nat → Nat) (p : Nat) : Nat :=
  sub64 (GET_NEXT (mem p)) (p + hdrSize)

/-- `align_up(x, align)` (mm.c lines 42-44): `(x + (align-1)) & ~(align-1)` in
`size_t` arithmetic; for a power-of-two `align` the mask clears the remainder
modulo `align`, i.e. subtracts `((x + align - 1) mod 2^64) mod align`. -/
def align_up (x align : Nat) : Nat :=
  ((x + (align - 1)) % M) - ((x + (align - 1)) % M) % align

/-- `aligned_memory_start` (mm.c line 58): `memory_start + (memory_start %
instructionSetBits)` with `instructionSetBits = 64`, in `uintptr_t`
arithmetic. -/
def alignedStart (ms : Nat) : Nat := (ms + ms % 64) % M

/-- `aligned_memory_end` (mm.c line 59): `memory_end - (memory_end %
instructionSetBits)`. -/
def alignedEnd (me : Nat) : Nat := me - me % 64

/-- `coalesceNext` (mm.c lines 46-53): returns whether the merge happened and
the updated memory. -/
def coalesceNext (mem : Nat → Nat) (curr : Nat) : Bool × (Nat → Nat) :=
  let next := GET_NEXT (mem curr)
  if GET_FREE (mem next) = 1 ∧ GET_FREE (mem curr) = 1 then
    (true, update mem curr (SET_NEXT (mem curr) (GET_NEXT (mem next))))
  else (false, mem)

/-- `simple_init` (mm.c lines 55-72).  Note that
`last = (BlockHeader *) aligned_memory_end - sizeof(BlockHeader)` is pointer
arithmetic on `BlockHeader *`, so it subtracts `8 * sizeof(BlockHeader) = 64`
bytes. -/
def simple_init (ms me : Nat) (st : MMState) : MMState :=
  let A := alignedStart ms
  let E := alignedEnd me
  if st.first = 0 then
    if (A + 2 * hdrSize + MIN_SIZE) % M ≤ E then
      let f := A
      let l := sub64 E (hdrSize * hdrSize)
      let m1 := update st.mem f (SET_FREE (st.mem f) true)
      let m2 := update m1 f (SET_NEXT (m1 f) l)
      let m3 := update m2 l (SET_NEXT (m2 l) f)
      let m4 := update m3 l (SET_FREE (m3 l) false)
      { mem := m4, first := f, current := f, last := l }
    else st
  else st

/-- Lines 128-139 of `simple_malloc`: compute the payload address, advance the
roving cursor to the successor, and run the two defensive checks. -/
def malloc_finish (me : Nat) (st : MMState) : Option Nat × MMState :=
  let currAdd := (st.current + hdrSize) % M
  let cur := GET_NEXT (st.mem st.current)
  if me < cur then (none, { st with current := cur })
  else if GET_NEXT (st.mem cur) = 0 then
    (some currAdd,
      { st with
          current := cur
          mem := update st.mem cur (SET_NEXT (st.mem cur) st.last) })
  else (some currAdd, { st with current := cur })

/-- One iteration of the do-while body of `simple_malloc` (mm.c lines 87-141)
at the block `st.current`.  `some r` means the body returned `r` (the C
`return`); `none` means it fell through to the `current = GET_NEXT(current)`
advance at line 142. -/
def malloc_body (me a_size : Nat) (st : MMState) : Option (Option Nat × MMState) :=
  let c := st.current
  if GET_FREE (st.mem c) = 1 then
    if a_size ≤ SIZE st.mem c then
      if SIZE st.mem c - a_size < hdrSize + MIN_SIZE then
        some (malloc_finish me
          { st with mem := update st.mem c (SET_FREE (st.mem c) false) })
      else
        let new_block := (c + hdrSize + a_size) % M
        let next := GET_NEXT (st.mem c)
        let m1 := update st.mem new_block (SET_FREE (st.mem new_block) true)
        let m2 :=
          if GET_FREE (m1 next) = 1 then
            update m1 new_block (SET_NEXT (m1 new_block) (GET_NEXT (m1 next)))
          else
            update m1 new_block (SET_NEXT (m1 new_block) next)
        let m3 := update m2 c (SET_NEXT (m2 c) new_block)
        let m4 := update m3 c (SET_FREE (m3 c) false)
        some (malloc_finish me { st with mem := m4 })
    else
      let next := GET_NEXT (st.mem c)
      if next ≠ 0 ∧ GET_FREE (st.mem next) = 1 ∧
          a_size ≤ (SIZE st.mem c + SIZE st.mem next + hdrSize) % M then
        match coalesceNext st.mem c with
        | (true, m1) =>
          some (malloc_finish me
            { st with mem := update m1 c (SET_FREE (m1 c) false) })
        | (false, m1) => some (none, { st with mem := m1 })
      else none
  else none

/-- The do-while loop of `simple_malloc` (mm.c lines 86-143), fuelled: `none`
means the fuel ran out (never happens from a well-formed state, see the
termination theorem), `some (r, st')` that the loop finished with result `r`. -/
def malloc_loop (me a_size s_start : Nat) : Nat → MMState → Option (Option Nat × MMState)
  | 0, _ => none
  | fuel + 1, st =>
    match malloc_body me a_size st with
    | some r => some r
    | none =>
      let c2 := GET_NEXT (st.mem st.current)
      if c2 = s_start then some (none, { st with current := c2 })
      else malloc_loop me a_size s_start fuel { st with current := c2 }

/-- `simple_malloc` (mm.c lines 74-147): lazy init, round the request up to a
word multiple, then search from the roving cursor. -/
def simple_malloc (ms me fuel : Nat) (st : MMState) (size : Nat) :
    Option (Option Nat × MMState) :=
  let st1 := if st.first = 0 then simple_init ms me st else st
  if st1.first = 0 then some (none, st1)
  else malloc_loop me (align_up size hdrSize) st1.current fuel st1

/-- `simple_free` (mm.c lines 149-158). -/
def simple_free (st : MMState) (ptr : Nat) : MMState :=
  if ptr = 0 then st
  else
    let block := sub64 ptr hdrSize
    if GET_FREE (st.mem block) = 1 then st
    else { st with mem := update st.mem block (SET_FREE (st.mem block) true) }

/-! ## Basic arithmetic facts about the header primitives -/

theorem M_pos : 0 < M := by unfold M; norm_num

theorem update_self (m : Nat → Nat) (a v : Nat) : update m a v a = v := by
  simp [update]

theorem update_ne (m : Nat → Nat) (a v x : Nat) (h : x ≠ a) :
    update m a v x = m x := by
  simp [update, h]

theorem update_update_same (m : Nat → Nat) (a v w : Nat) :
    update (update m a v) a w = update m a w := by
  funext x
  by_cases h : x = a <;> simp [update, h]

theorem GET_NEXT_SET_FREE (w : Nat) (f : Bool) :
    GET_NEXT (SET_FREE w f) = GET_NEXT w := by
  cases f <;> simp [GET_NEXT, SET_FREE] <;> omega

theorem GET_FREE_SET_FREE (w : Nat) (f : Bool) :
    GET_FREE (SET_FREE w f) = if f then 1 else 0 := by
  cases f <;> simp [GET_FREE, SET_FREE] <;> omega

theorem GET_NEXT_SET_NEXT (w n : Nat) (h : n % 2 = 0) :
    GET_NEXT (SET_NEXT w n) = n := by
  simp [GET_NEXT, SET_NEXT]; omega

theorem GET_FREE_SET_NEXT (w n : Nat) : GET_FREE (SET_NEXT w n) = GET_FREE w := by
  simp [GET_FREE, SET_NEXT]; omega

theorem GET_NEXT_even (w : Nat) : GET_NEXT w % 2 = 0 := by
  simp [GET_NEXT]; omega

theorem sub64_eq (a b : Nat) (hb : b ≤ a) (ha : a < M) : sub64 a b = a - b := by
  unfold sub64 M at *; omega

theorem align_up_mod8 (x : Nat) : align_up x hdrSize % 8 = 0 := by
  unfold align_up hdrSize M; omega

theorem align_up_lt (x : Nat) : align_up x hdrSize < M := by
  unfold align_up hdrSize M; omega

theorem align_up_ge (x : Nat) (h : x + 8 ≤ M) : x ≤ align_up x hdrSize := by
  unfold align_up hdrSize M at *; omega

theorem align_up_min8 (x : Nat) (h1 : 1 ≤ x) (h2 : x + 8 ≤ M) :
    8 ≤ align_up x hdrSize := by
  unfold align_up hdrSize M at *; omega

theorem SIZE_congr {m m' : Nat → Nat} (p : Nat)
    (h : GET_NEXT (m' p) = GET_NEXT (m p)) : SIZE m' p = SIZE m p := by
  simp [SIZE, h]

theorem SIZE_of_next {m : Nat → Nat} {p d : Nat} (h : GET_NEXT (m p) = d)
    (h1 : p + 8 ≤ d) (h2 : d < M) : SIZE m p = d - p - 8 := by
  unfold SIZE hdrSize
  rw [h, sub64_eq d (p + 8) (by omega) h2]
  omega

/-! ## The well-formed state invariant

The blocks of the arena, in address order, form the list `bs`: consecutive
blocks are linked by the stored `next` fields and are at least one header
apart, the list starts at `first` and ends at the sentinel `last`, whose
stored `next` wraps around to `first` and which is never free.  `Sane`
captures the arena bounds under which `simple_init` produces such a state
(a region of at least ~96 bytes whose addresses fit in 64 bits). -/

/-- Consecutive blocks: the stored next of `b` points at `b'`, one header or
more above `b`. -/
def link (mem : Nat → Nat) (b b' : Nat) : Prop :=
  GET_NEXT (mem b) = b' ∧ b + 8 ≤ b'

/-- Arena bounds under which initialization produces a well-formed state. -/
def Sane (ms me : Nat) : Prop :=
  0 < ms ∧ me < M ∧ ms + ms % 64 + 72 ≤ alignedEnd me

/-- The allocator-state invariant. -/
structure Valid (ms me : Nat) (st : MMState) (bs : List Nat) : Prop where
  hms : 0 < ms
  hme : me < M
  hcap : ms + ms % 64 + 72 ≤ alignedEnd me
  hfirst : st.first = alignedStart ms
  hlast : st.last = alignedEnd me - 64
  hhead : bs.head? = some st.first
  hgetLast : bs.getLast? = some st.last
  hchain : List.Chain' (link st.mem) bs
  hwrap : GET_NEXT (st.mem st.last) = st.first
  hlastfree : GET_FREE (st.mem st.last) = 0
  hcur : st.current ∈ bs
  heven : ∀ b ∈ bs, b % 2 = 0

theorem Valid.A_eq {ms me : Nat} {st : MMState} {bs : List Nat}
    (v : Valid ms me st bs) : st.first = ms + ms % 64 := by
  have h1 := v.hcap
  have h2 := v.hme
  have h3 := v.hfirst
  unfold alignedEnd at h1
  unfold alignedStart M at *
  omega

theorem Valid.first_pos {ms me : Nat} {st : MMState} {bs : List Nat}
    (v : Valid ms me st bs) : 0 < st.first := by
  have := v.A_eq
  have := v.hms
  omega

theorem Valid.first_add_le_last {ms me : Nat} {st : MMState} {bs : List Nat}
    (v : Valid ms me st bs) : st.first + 8 ≤ st.last := by
  have h1 := v.hcap
  have h2 := v.A_eq
  have h3 := v.hlast
  unfold alignedEnd at *
  omega

theorem Valid.last_lt_me {ms me : Nat} {st : MMState} {bs : List Nat}
    (v : Valid ms me st bs) : st.last < me := by
  have h1 := v.hcap
  have h3 := v.hlast
  unfold alignedEnd at *
  omega

theorem Valid.last_lt_M {ms me : Nat} {st : MMState} {bs : List Nat}
    (v : Valid ms me st bs) : st.last < M := by
  have h1 := v.last_lt_me
  have h2 := v.hme
  omega

/-! ## Chain lemmas -/

theorem chain_head_le {m : Nat → Nat} :
    ∀ {rest : List Nat} {b : Nat}, List.Chain' (link m) (b :: rest) →
      ∀ y ∈ rest, b + 8 ≤ y := by
  intro rest
  induction rest with
  | nil => intro b _ y hy; cases hy
  | cons c rest' ih =>
    intro b hch y hy
    rw [List.chain'_cons] at hch
    obtain ⟨⟨_, hbc⟩, hch'⟩ := hch
    rcases List.mem_cons.mp hy with hy | hy
    · omega
    · have := ih hch' y hy
      omega

theorem chain_pairwise {m : Nat → Nat} :
    ∀ {bs : List Nat}, List.Chain' (link m) bs →
      bs.Pairwise (fun a b => a + 8 ≤ b) := by
  intro bs
  induction bs with
  | nil => intro _; exact List.Pairwise.nil
  | cons b rest ih =>
    intro hch
    refine List.pairwise_cons.mpr ⟨chain_head_le hch, ih ?_⟩
    exact (List.chain'_cons'.mp hch).2

theorem chain_nodup {m : Nat → Nat} {bs : List Nat}
    (h : List.Chain' (link m) bs) : bs.Nodup :=
  (chain_pairwise h).imp (by intro a b hab; omega)

theorem pairwise_le_getLast {bs : List Nat} {z : Nat}
    (hp : bs.Pairwise (fun a b => a + 8 ≤ b)) (hz : bs.getLast? = some z) :
    ∀ b ∈ bs, b ≤ z := by
  induction bs with
  | nil => cases hz
  | cons x t ih =>
    intro b hb
    rcases t with _ | ⟨y, t'⟩
    · simp at hz
      rcases List.mem_cons.mp hb with hb | hb
      · omega
      · cases hb
    · rw [List.getLast?_cons_cons] at hz
      have hp' := List.pairwise_cons.mp hp
      rcases List.mem_cons.mp hb with hb | hb
      · have hz' : z ∈ y :: t' := List.mem_of_mem_getLast? (Option.mem_def.mpr hz)
        have := hp'.1 z hz'
        omega
      · exact ih hp'.2 hz b hb

theorem pairwise_ge_head {bs : List Nat} {a : Nat}
    (hp : bs.Pairwise (fun a b => a + 8 ≤ b)) (ha : bs.head? = some a) :
    ∀ b ∈ bs, a ≤ b := by
  cases bs with
  | nil => cases ha
  | cons x t =>
    simp at ha
    subst ha
    intro b hb
    rcases List.mem_cons.mp hb with hb | hb
    · omega
    · have := (List.pairwise_cons.mp hp).1 b hb
      omega

theorem Valid.mem_le_last {ms me : Nat} {st : MMState} {bs : List Nat}
    (v : Valid ms me st bs) {b : Nat} (hb : b ∈ bs) : b ≤ st.last :=
  pairwise_le_getLast (chain_pairwise v.hchain) v.hgetLast b hb

theorem Valid.first_le_mem {ms me : Nat} {st : MMState} {bs : List Nat}
    (v : Valid ms me st bs) {b : Nat} (hb : b ∈ bs) : st.first ≤ b :=
  pairwise_ge_head (chain_pairwise v.hchain) v.hhead b hb

theorem Valid.mem_pos {ms me : Nat} {st : MMState} {bs : List Nat}
    (v : Valid ms me st bs) {b : Nat} (hb : b ∈ bs) : 0 < b := by
  have := v.first_le_mem hb
  have := v.first_pos
  omega

theorem Valid.mem_lt_M {ms me : Nat} {st : MMState} {bs : List Nat}
    (v : Valid ms me st bs) {b : Nat} (hb : b ∈ bs) : b < M := by
  have := v.mem_le_last hb
  have := v.last_lt_M
  omega

theorem Valid.first_mem {ms me : Nat} {st : MMState} {bs : List Nat}
    (v : Valid ms me st bs) : st.first ∈ bs := by
  have := v.hhead
  cases bs with
  | nil => cases this
  | cons x t => simp at this; simp [this]

theorem Valid.last_mem {ms me : Nat} {st : MMState} {bs : List Nat}
    (v : Valid ms me st bs) : st.last ∈ bs := by
  have := v.hgetLast
  exact List.mem_of_mem_getLast? this

/-- A non-sentinel block's stored next is the following block of `bs`. -/
theorem Valid.split_at {ms me : Nat} {st : MMState} {bs : List Nat}
    (v : Valid ms me st bs) {t : Nat} (ht : t ∈ bs) (hne : t ≠ st.last) :
    ∃ xs d rest, bs = xs ++ t :: d :: rest ∧
      GET_NEXT (st.mem t) = d ∧ t + 8 ≤ d := by
  obtain ⟨xs, ys, hbs⟩ := List.append_of_mem ht
  cases ys with
  | nil =>
    exfalso
    have := v.hgetLast
    rw [hbs, List.getLast?_append_cons] at this
    simp at this
    exact hne this
  | cons d rest =>
    refine ⟨xs, d, rest, hbs, ?_, ?_⟩
    · have hch := v.hchain
      rw [hbs] at hch
      have := (List.chain'_append.mp hch).2.1
      exact (List.chain'_cons.mp this).1.1
    · have hch := v.hchain
      rw [hbs] at hch
      have := (List.chain'_append.mp hch).2.1
      exact (List.chain'_cons.mp this).1.2

/-- The stored next of any block of `bs` is again in `bs`. -/
theorem Valid.next_mem {ms me : Nat} {st : MMState} {bs : List Nat}
    (v : Valid ms me st bs) {b : Nat} (hb : b ∈ bs) :
    GET_NEXT (st.mem b) ∈ bs := by
  by_cases hL : b = st.last
  · rw [hL, v.hwrap]
    exact v.first_mem
  · obtain ⟨xs, d, rest, hbs, hnext, _⟩ := v.split_at hb hL
    rw [hnext, hbs]
    simp

theorem Valid.next_pos {ms me : Nat} {st : MMState} {bs : List Nat}
    (v : Valid ms me st bs) {b : Nat} (hb : b ∈ bs) :
    GET_NEXT (st.mem b) ≠ 0 := by
  have := v.mem_pos (v.next_mem hb)
  omega

theorem Valid.withCurrent {ms me : Nat} {st : MMState} {bs : List Nat}
    (v : Valid ms me st bs) {t : Nat} (ht : t ∈ bs) :
    Valid ms me { st with current := t } bs :=
  { v with hcur := ht }

theorem chain'_link_congr {m m' : Nat → Nat} :
    ∀ {l : List Nat}, (∀ b ∈ l, GET_NEXT (m' b) = GET_NEXT (m b)) →
      List.Chain' (link m) l → List.Chain' (link m') l := by
  intro l
  induction l with
  | nil => intro _ _; exact List.chain'_nil
  | cons b rest ih =>
    intro h hch
    cases rest with
    | nil => exact List.chain'_singleton b
    | cons c rest' =>
      rw [List.chain'_cons] at hch ⊢
      refine ⟨⟨?_, hch.1.2⟩, ih (fun x hx => h x (List.mem_cons_of_mem b hx)) hch.2⟩
      rw [h b (List.mem_cons_self b _)]
      exact hch.1.1

theorem head?_append_cons {xs : List Nat} (y : Nat) (l l' : List Nat) :
    (xs ++ y :: l).head? = (xs ++ y :: l').head? := by
  cases xs <;> simp

/-! ## The do-while body: trigger condition and case analysis -/

/-- The condition (mm.c lines 88 and 115) under which the body of the search
loop returns instead of falling through to the cursor advance. -/
def triggers (mem : Nat → Nat) (a b : Nat) : Prop :=
  GET_FREE (mem b) = 1 ∧
    (a ≤ SIZE mem b ∨
      (GET_NEXT (mem b) ≠ 0 ∧ GET_FREE (mem (GET_NEXT (mem b))) = 1 ∧
        a ≤ (SIZE mem b + SIZE mem (GET_NEXT (mem b)) + hdrSize) % M))

theorem body_none {me a : Nat} {st : MMState}
    (h : ¬ triggers st.mem a st.current) : malloc_body me a st = none := by
  by_cases h1 : GET_FREE (st.mem st.current) = 1
  · have h2 : ¬ a ≤ SIZE st.mem st.current := fun hc => h ⟨h1, Or.inl hc⟩
    have h3 : ¬ (GET_NEXT (st.mem st.current) ≠ 0 ∧
        GET_FREE (st.mem (GET_NEXT (st.mem st.current))) = 1 ∧
        a ≤ (SIZE st.mem st.current +
          SIZE st.mem (GET_NEXT (st.mem st.current)) + hdrSize) % M) :=
      fun hc => h ⟨h1, Or.inr hc⟩
    simp only [malloc_body]
    rw [if_pos h1, if_neg h2, if_neg h3]
  · simp only [malloc_body]
    rw [if_neg h1]

theorem triggers_of_body_some {me a : Nat} {st : MMState} {r : Option Nat × MMState}
    (h : malloc_body me a st = some r) : triggers st.mem a st.current := by
  by_contra hc
  rw [body_none hc] at h
  cases h

theorem finish_spec {me : Nat} {st : MMState}
    (h1 : GET_NEXT (st.mem st.current) ≤ me)
    (h2 : GET_NEXT (st.mem (GET_NEXT (st.mem st.current))) ≠ 0)
    (h3 : st.current + 8 < M) :
    malloc_finish me st =
      (some (st.current + 8),
        { st with current := GET_NEXT (st.mem st.current) }) := by
  simp only [malloc_finish]
  rw [if_neg (not_lt.mpr h1), if_neg h2]
  have : (st.current + hdrSize) % M = st.current + 8 := by
    unfold hdrSize
    exact Nat.mod_eq_of_lt h3
  rw [this]

/-- What every successful body execution guarantees, besides the returned
pointer being `st.current + 8`. -/
structure BodySucc (ms me a : Nat) (st : MMState) (bs : List Nat)
    (st' : MMState) (bs' : List Nat) : Prop where
  valid' : Valid ms me st' bs'
  hfirst' : st'.first = st.first
  hlast' : st'.last = st.last
  halloc : GET_FREE (st'.mem st.current) = 0
  hsize : a ≤ SIZE st'.mem st.current
  hmem_bs : ∀ x ∈ bs, x ≠ st.current → st'.mem x = st.mem x
  hkeep : ∀ x ∈ bs, GET_FREE (st.mem x) = 0 → x ∈ bs'
  hcurmem : st.current ∈ bs'

/-- The three ways an allocation can be carved out of the block `t`
(mm.c lines 90-125): whole-block consumption, split with a new free block at
`t + 8 + a` (folding a free successor into it), or forward coalescing. -/
def SuccDetail (st : MMState) (a t : Nat) (st' : MMState) : Prop :=
  (a ≤ SIZE st.mem t ∧ SIZE st.mem t - a < hdrSize + MIN_SIZE ∧
    st'.mem = update st.mem t (SET_FREE (st.mem t) false) ∧
    st'.current = GET_NEXT (st.mem t))
  ∨ (a ≤ SIZE st.mem t ∧ hdrSize + MIN_SIZE ≤ SIZE st.mem t - a ∧
    GET_NEXT (st'.mem t) = t + 8 + a ∧ GET_FREE (st'.mem (t + 8 + a)) = 1 ∧
    GET_NEXT (st'.mem (t + 8 + a)) =
      (if GET_FREE (st.mem (GET_NEXT (st.mem t))) = 1
       then GET_NEXT (st.mem (GET_NEXT (st.mem t)))
       else GET_NEXT (st.mem t)) ∧
    (∀ x, x ≠ t → x ≠ t + 8 + a → st'.mem x = st.mem x) ∧
    st'.current = t + 8 + a)
  ∨ (SIZE st.mem t < a ∧ GET_FREE (st.mem (GET_NEXT (st.mem t))) = 1 ∧
    st'.mem = update st.mem t
      (SET_FREE (SET_NEXT (st.mem t)
        (GET_NEXT (st.mem (GET_NEXT (st.mem t))))) false) ∧
    SIZE st'.mem t = SIZE st.mem t + hdrSize + SIZE st.mem (GET_NEXT (st.mem t)))

theorem Valid.free_ne_last {ms me : Nat} {st : MMState} {bs : List Nat}
    (v : Valid ms me st bs) {t : Nat} (hfree : GET_FREE (st.mem t) = 1) :
    t ≠ st.last := by
  intro h
  rw [h, v.hlastfree] at hfree
  cases hfree

/-- Case 1 (mm.c lines 90-95): the block is adequate and the leftover is too
small to split off: the block is consumed whole and only its free bit
changes. -/
theorem body_consume {ms me a : Nat} {st : MMState} {bs : List Nat}
    (v : Valid ms me st bs) (hfree : GET_FREE (st.mem st.current) = 1)
    (hge : a ≤ SIZE st.mem st.current)
    (hlt : SIZE st.mem st.current - a < hdrSize + MIN_SIZE) :
    ∃ st' bs', malloc_body me a st = some (some (st.current + 8), st') ∧
      BodySucc ms me a st bs st' bs' ∧ SuccDetail st a st.current st' := by
  set t := st.current with ht_def
  have ht : t ∈ bs := v.hcur
  have htL : t ≠ st.last := v.free_ne_last hfree
  obtain ⟨xs, d, rest, hbs, hnext, hgap⟩ := v.split_at ht htL
  have hd_mem : d ∈ bs := by rw [hbs]; simp
  have hd_le : d ≤ st.last := v.mem_le_last hd_mem
  have hd_lt_M : d < M := v.mem_lt_M hd_mem
  have ht_lt : t + 8 ≤ st.last := le_trans hgap hd_le
  have hlast_me := v.last_lt_me
  have hlast_M := v.last_lt_M
  have hdt : d ≠ t := by omega
  -- the state after the body
  refine ⟨{ st with
      mem := update st.mem t (SET_FREE (st.mem t) false), current := d },
    bs, ?_, ?_, ?_⟩
  · -- body evaluation
    simp only [malloc_body]
    rw [if_pos hfree, if_pos hge, if_pos hlt]
    have hfin := @finish_spec me
      { st with mem := update st.mem t (SET_FREE (st.mem t) false) }
      (by
        show GET_NEXT (update st.mem t (SET_FREE (st.mem t) false) st.current) ≤ me
        rw [update_self, GET_NEXT_SET_FREE, hnext]
        omega)
      (by
        show GET_NEXT (update st.mem t (SET_FREE (st.mem t) false)
          (GET_NEXT (update st.mem t (SET_FREE (st.mem t) false) st.current))) ≠ 0
        rw [update_self, GET_NEXT_SET_FREE, hnext, update_ne _ _ _ _ hdt]
        exact v.next_pos hd_mem)
      (by show st.current + 8 < M; omega)
    rw [hfin]
    have : GET_NEXT (update st.mem t (SET_FREE (st.mem t) false) st.current) = d := by
      rw [update_self, GET_NEXT_SET_FREE, hnext]
    rw [this]
  · -- BodySucc
    have hGN : ∀ x, GET_NEXT (update st.mem t (SET_FREE (st.mem t) false) x) =
        GET_NEXT (st.mem x) := by
      intro x
      by_cases hx : x = t
      · rw [hx, update_self, GET_NEXT_SET_FREE]
      · rw [update_ne _ _ _ _ hx]
    have hLne : st.last ≠ t := fun h => htL h.symm
    refine ⟨?_, rfl, rfl, ?_, ?_, ?_, fun x hx _ => hx, ht⟩
    · exact { v with
        hchain := chain'_link_congr (fun b _ => hGN b) v.hchain
        hwrap := by rw [hGN]; exact v.hwrap
        hlastfree := by
          show GET_FREE (update st.mem t (SET_FREE (st.mem t) false) st.last) = 0
          rw [update_ne _ _ _ _ hLne]; exact v.hlastfree
        hcur := hd_mem }
    · show GET_FREE (update st.mem t (SET_FREE (st.mem t) false) t) = 0
      rw [update_self, GET_FREE_SET_FREE]
      rfl
    · show a ≤ SIZE (update st.mem t (SET_FREE (st.mem t) false)) t
      rw [SIZE_congr t (hGN t)]
      exact hge
    · intro x _ hx
      exact update_ne _ _ _ _ hx
  · -- SuccDetail: whole-block consumption
    exact Or.inl ⟨hge, hlt, rfl, hnext.symm⟩

/-- The memory after the split branch of the body (mm.c lines 96-110): a new
free header at `t + 8 + a` pointing at the successor (or, when that successor
is itself free, folding it in by pointing past it), and `t` relinked to the
new header and marked allocated. -/
def splitMem (mem : Nat → Nat) (t a : Nat) : Nat → Nat :=
  update (update mem (t + 8 + a)
    (SET_NEXT (SET_FREE (mem (t + 8 + a)) true)
      (if GET_FREE (mem (GET_NEXT (mem t))) = 1
       then GET_NEXT (mem (GET_NEXT (mem t)))
       else GET_NEXT (mem t))))
    t (SET_FREE (SET_NEXT (mem t) (t + 8 + a)) false)

/-- Evaluation of the body in the split branch (mm.c lines 96-110): the four
header writes collapse to a two-point update of the memory. -/
theorem body_split_mem {me a : Nat} {st : MMState}
    (hfree : GET_FREE (st.mem st.current) = 1)
    (hge : a ≤ SIZE st.mem st.current)
    (hge16 : hdrSize + MIN_SIZE ≤ SIZE st.mem st.current - a)
    (hnb_mod : (st.current + hdrSize + a) % M = st.current + 8 + a)
    (hne_t : st.current ≠ st.current + 8 + a)
    (hne_d : GET_NEXT (st.mem st.current) ≠ st.current + 8 + a) :
    malloc_body me a st =
      some (malloc_finish me { st with mem := splitMem st.mem st.current a }) := by
  simp only [splitMem]
  simp only [malloc_body]
  rw [if_pos hfree, if_pos hge, if_neg (not_lt.mpr hge16), hnb_mod,
    update_ne _ _ _ _ hne_d]
  by_cases hdf : GET_FREE (st.mem (GET_NEXT (st.mem st.current))) = 1
  · rw [if_pos hdf, if_pos hdf]
    rw [update_ne _ _ _ _ hne_t, update_ne _ _ _ _ hne_t]
    simp only [update_self, update_update_same]
  · rw [if_neg hdf, if_neg hdf]
    rw [update_ne _ _ _ _ hne_t, update_ne _ _ _ _ hne_t]
    simp only [update_self, update_update_same]

/-- Case 2 (mm.c lines 96-110): the block is adequate and large enough to
split: a new free block is created at `t + 8 + a`, folding in a free
successor. -/
theorem body_split {ms me a : Nat} {st : MMState} {bs : List Nat}
    (v : Valid ms me st bs) (hfree : GET_FREE (st.mem st.current) = 1)
    (hge : a ≤ SIZE st.mem st.current)
    (hge16 : hdrSize + MIN_SIZE ≤ SIZE st.mem st.current - a)
    (ha8 : a % 8 = 0) :
    ∃ st' bs', malloc_body me a st = some (some (st.current + 8), st') ∧
      BodySucc ms me a st bs st' bs' ∧ SuccDetail st a st.current st' := by
  set t := st.current with ht_def
  have ht : t ∈ bs := v.hcur
  have htL : t ≠ st.last := v.free_ne_last hfree
  obtain ⟨xs, d, rest, hbs, hnext, hgap⟩ := v.split_at ht htL
  have hd_mem : d ∈ bs := by rw [hbs]; simp
  have hd_le : d ≤ st.last := v.mem_le_last hd_mem
  have hd_M : d < M := v.mem_lt_M hd_mem
  have hlast_me := v.last_lt_me
  have hlast_M := v.last_lt_M
  have hS : SIZE st.mem t = d - t - 8 := SIZE_of_next hnext hgap hd_M
  set nb := t + 8 + a with hnb_def
  have hnb_d : nb + 16 ≤ d := by
    have : hdrSize + MIN_SIZE = 16 := by unfold hdrSize MIN_SIZE; rfl
    omega
  have hnb_M : nb < M := by omega
  have ht8M : t + 8 < M := by omega
  have ht_even : t % 2 = 0 := v.heven t ht
  have hnb_even : nb % 2 = 0 := by omega
  have hne_t : t ≠ nb := by omega
  have hne_d : GET_NEXT (st.mem t) ≠ nb := by rw [hnext]; omega
  have hnb_mod : (t + hdrSize + a) % M = nb := by
    unfold hdrSize
    exact Nat.mod_eq_of_lt (by omega)
  -- ordering facts around the decomposition
  have hpw := chain_pairwise v.hchain
  rw [hbs] at hpw
  obtain ⟨hpw_xs, hpw_tdr, hcross⟩ := List.pairwise_append.mp hpw
  have hxs_lt : ∀ b ∈ xs, b + 8 ≤ t := fun b hb => hcross b hb t (by simp)
  have ht_lt_dr : ∀ y ∈ d :: rest, t + 8 ≤ y := (List.pairwise_cons.mp hpw_tdr).1
  have hpw_dr : List.Pairwise (fun a b => a + 8 ≤ b) (d :: rest) :=
    (List.pairwise_cons.mp hpw_tdr).2
  have hd_rest : ∀ y ∈ rest, d + 8 ≤ y := (List.pairwise_cons.mp hpw_dr).1
  -- chain decomposition
  have hch := v.hchain
  rw [hbs] at hch
  obtain ⟨hch_xs, hch_tdr, hjunc⟩ := List.chain'_append.mp hch
  have hch_dr : List.Chain' (link st.mem) (d :: rest) :=
    (List.chain'_cons.mp hch_tdr).2
  -- the result memory
  set m' := splitMem st.mem t a with hmdef
  have hm'_t : m' t = SET_FREE (SET_NEXT (st.mem t) nb) false := by
    rw [hmdef]
    unfold splitMem
    rw [update_self]
  have hm'_nb : m' nb = SET_NEXT (SET_FREE (st.mem nb) true)
      (if GET_FREE (st.mem d) = 1 then GET_NEXT (st.mem d) else d) := by
    rw [hmdef]
    unfold splitMem
    rw [update_ne _ _ _ _ (Ne.symm hne_t), update_self, hnext]
  have hm'_x : ∀ x, x ≠ t → x ≠ nb → m' x = st.mem x := by
    intro x h1 h2
    rw [hmdef]
    unfold splitMem
    rw [update_ne _ _ _ _ h1, update_ne _ _ _ _ h2]
  have hGN_t : GET_NEXT (m' t) = nb := by
    rw [hm'_t, GET_NEXT_SET_FREE, GET_NEXT_SET_NEXT _ _ hnb_even]
  have hGF_t : GET_FREE (m' t) = 0 := by
    rw [hm'_t, GET_FREE_SET_FREE]
    rfl
  have htgt_even :
      (if GET_FREE (st.mem d) = 1 then GET_NEXT (st.mem d) else d) % 2 = 0 := by
    split
    · exact GET_NEXT_even _
    · exact v.heven d hd_mem
  have hGN_nb : GET_NEXT (m' nb) =
      (if GET_FREE (st.mem d) = 1 then GET_NEXT (st.mem d) else d) := by
    rw [hm'_nb, GET_NEXT_SET_NEXT _ _ htgt_even]
  have hGF_nb : GET_FREE (m' nb) = 1 := by
    rw [hm'_nb, GET_FREE_SET_NEXT, GET_FREE_SET_FREE]
    rfl
  have hnb_notin : ∀ x ∈ bs, x ≠ nb := by
    intro x hx
    rw [hbs] at hx
    simp only [List.mem_append, List.mem_cons] at hx
    rcases hx with h | h | h | h
    · have := hxs_lt x h; omega
    · omega
    · omega
    · have := hd_rest x h; omega
  have hS' : SIZE m' t = a := by
    rw [SIZE_of_next hGN_t (by omega) hnb_M]
    omega
  -- the result state
  refine ⟨{ st with mem := m', current := nb }, ?_, ?_, ?_, ?_⟩
  case _ =>
    exact if GET_FREE (st.mem d) = 1
      then xs ++ t :: nb :: rest
      else xs ++ t :: nb :: d :: rest
  · -- body evaluation
    rw [body_split_mem hfree hge hge16 hnb_mod hne_t hne_d]
    rw [← hmdef]
    have h1 : GET_NEXT (m' t) ≤ me := by rw [hGN_t]; omega
    have h2 : GET_NEXT (m' (GET_NEXT (m' t))) ≠ 0 := by
      rw [hGN_t, hGN_nb]
      split
      · exact v.next_pos hd_mem
      · have := v.mem_pos hd_mem; omega
    have hfin := @finish_spec me { st with mem := m' } h1 h2 ht8M
    rw [hfin, hGN_t]
  · -- BodySucc
    constructor
    case hfirst' => rfl
    case hlast' => rfl
    case halloc => exact hGF_t
    case hsize => rw [hS']
    case hmem_bs => exact fun x hx hxt => hm'_x x hxt (hnb_notin x hx)
    case hcurmem =>
      split <;> simp
    case hkeep =>
      intro x hx hxf
      rw [hbs] at hx
      simp only [List.mem_append, List.mem_cons] at hx
      split
      case isTrue hdf =>
        rcases hx with h | h | h | h
        · simp [h]
        · simp [h]
        · rw [h, hdf] at hxf; cases hxf
        · simp [h]
      case isFalse hdf =>
        rcases hx with h | h | h | h
        · simp [h]
        · simp [h]
        · simp [h]
        · simp [h]
    case valid' =>
      -- common pieces
      have hjunc' : ∀ junc_tail : List Nat,
          ∀ x ∈ xs.getLast?, ∀ y ∈ (t :: junc_tail).head?, link m' x y := by
        intro junc_tail x hx y hy
        simp only [List.head?_cons, Option.mem_def, Option.some_inj] at hy
        subst hy
        have hxm : x ∈ xs := List.mem_of_mem_getLast? hx
        have hxbs : x ∈ bs := by rw [hbs]; simp [hxm]
        have hlk : link st.mem x t := by
          have := hjunc x hx t (by simp)
          exact this
        refine ⟨?_, hlk.2⟩
        rw [hm'_x x (by have := hxs_lt x hxm; omega) (hnb_notin x hxbs)]
        exact hlk.1
      have hxs_chain : List.Chain' (link m') xs := by
        refine chain'_link_congr ?_ hch_xs
        intro b hb
        rw [hm'_x b (by have := hxs_lt b hb; omega)
          (hnb_notin b (by rw [hbs]; simp [hb]))]
      have hlast_ne_t : st.last ≠ t := Ne.symm htL
      have hlast_ne_nb : st.last ≠ nb := by omega
      have hm'_last : m' st.last = st.mem st.last := hm'_x _ hlast_ne_t hlast_ne_nb
      split
      case isTrue hdf =>
        -- free successor: it is folded into the new block and dropped
        have hdL : d ≠ st.last := v.free_ne_last hdf
        cases rest with
        | nil =>
          exfalso
          have hgl := v.hgetLast
          rw [hbs, List.getLast?_append_cons] at hgl
          simp at hgl
          exact hdL hgl
        | cons e rest2 =>
          have hde : GET_NEXT (st.mem d) = e := (List.chain'_cons.mp hch_dr).1.1
          have hde_gap : d + 8 ≤ e := (List.chain'_cons.mp hch_dr).1.2
          have hch_er : List.Chain' (link st.mem) (e :: rest2) :=
            (List.chain'_cons.mp hch_dr).2
          refine
            { hms := v.hms, hme := v.hme, hcap := v.hcap
              hfirst := v.hfirst, hlast := v.hlast
              hhead := ?_, hgetLast := ?_, hchain := ?_
              hwrap := ?_, hlastfree := ?_, hcur := ?_, heven := ?_ }
          · rw [head?_append_cons t (nb :: e :: rest2) (d :: e :: rest2), ← hbs]
            exact v.hhead
          · rw [List.getLast?_append_cons, List.getLast?_cons_cons,
              List.getLast?_cons_cons]
            have hgl := v.hgetLast
            rw [hbs, List.getLast?_append_cons, List.getLast?_cons_cons,
              List.getLast?_cons_cons] at hgl
            exact hgl
          · refine List.chain'_append.mpr ⟨hxs_chain, ?_, hjunc' _⟩
            refine List.chain'_cons.mpr ⟨⟨hGN_t, by omega⟩, ?_⟩
            refine List.chain'_cons.mpr ⟨⟨?_, by omega⟩, ?_⟩
            · rw [hGN_nb, if_pos hdf, hde]
            · refine chain'_link_congr ?_ hch_er
              intro b hb
              have hb' : b ∈ d :: e :: rest2 := List.mem_cons_of_mem d hb
              have hdb : d + 8 ≤ b ∨ b = e := by
                rcases List.mem_cons.mp hb with h | h
                · right; exact h
                · left; exact hd_rest b (List.mem_cons_of_mem e h)
              have hble : b ≠ t := by
                have := ht_lt_dr b hb'; omega
              have hbnb : b ≠ nb := by
                rcases hdb with h | h <;> omega
              exact congrArg GET_NEXT (hm'_x b hble hbnb)
          · show GET_NEXT (m' st.last) = st.first
            rw [hm'_last]
            exact v.hwrap
          · show GET_FREE (m' st.last) = 0
            rw [hm'_last]
            exact v.hlastfree
          · show nb ∈ xs ++ t :: nb :: e :: rest2
            simp
          · intro b hb
            simp only [List.mem_append, List.mem_cons] at hb
            rcases hb with h | h | h | h | h
            · exact v.heven b (by rw [hbs]; simp [h])
            · rw [h]; exact ht_even
            · rw [h]; exact hnb_even
            · exact v.heven b (by rw [hbs, h]; simp)
            · exact v.heven b (by rw [hbs]; simp [h])
      case isFalse hdf =>
        -- allocated successor: it stays, the new block links to it
        refine
          { hms := v.hms, hme := v.hme, hcap := v.hcap
            hfirst := v.hfirst, hlast := v.hlast
            hhead := ?_, hgetLast := ?_, hchain := ?_
            hwrap := ?_, hlastfree := ?_, hcur := ?_, heven := ?_ }
        · rw [head?_append_cons t (nb :: d :: rest) (d :: rest), ← hbs]
          exact v.hhead
        · rw [List.getLast?_append_cons, List.getLast?_cons_cons,
            List.getLast?_cons_cons]
          have hgl := v.hgetLast
          rw [hbs, List.getLast?_append_cons, List.getLast?_cons_cons] at hgl
          exact hgl
        · refine List.chain'_append.mpr ⟨hxs_chain, ?_, hjunc' _⟩
          refine List.chain'_cons.mpr ⟨⟨hGN_t, by omega⟩, ?_⟩
          refine List.chain'_cons.mpr ⟨⟨?_, by omega⟩, ?_⟩
          · rw [hGN_nb, if_neg hdf]
          · refine chain'_link_congr ?_ hch_dr
            intro b hb
            have hble : b ≠ t := by
              have := ht_lt_dr b hb; omega
            have hbnb : b ≠ nb := by
              rcases List.mem_cons.mp hb with h | h
              · omega
              · have := hd_rest b h; omega
            exact congrArg GET_NEXT (hm'_x b hble hbnb)
        · show GET_NEXT (m' st.last) = st.first
          rw [hm'_last]
          exact v.hwrap
        · show GET_FREE (m' st.last) = 0
          rw [hm'_last]
          exact v.hlastfree
        · show nb ∈ xs ++ t :: nb :: d :: rest
          simp
        · intro b hb
          simp only [List.mem_append, List.mem_cons] at hb
          rcases hb with h | h | h | h | h
          · exact v.heven b (by rw [hbs]; simp [h])
          · rw [h]; exact ht_even
          · rw [h]; exact hnb_even
          · exact v.heven b (by rw [hbs, h]; simp)
          · exact v.heven b (by rw [hbs]; simp [h])
  · -- SuccDetail: the split case
    refine Or.inr (Or.inl ⟨hge, hge16, hGN_t, hGF_nb, ?_, hm'_x, rfl⟩)
    rw [hnext, hGN_nb]

/-- The memory after the forward-coalescing branch (mm.c lines 111-125):
`t` is relinked past its free successor and marked allocated. -/
def coalMem (mem : Nat → Nat) (t : Nat) : Nat → Nat :=
  update mem t
    (SET_FREE (SET_NEXT (mem t) (GET_NEXT (mem (GET_NEXT (mem t))))) false)

/-- Evaluation of the body in the coalescing branch. -/
theorem body_coalesce_mem {me a : Nat} {st : MMState}
    (hfree : GET_FREE (st.mem st.current) = 1)
    (hnge : ¬ a ≤ SIZE st.mem st.current)
    (hne0 : GET_NEXT (st.mem st.current) ≠ 0)
    (hdf : GET_FREE (st.mem (GET_NEXT (st.mem st.current))) = 1)
    (hcomb : a ≤ (SIZE st.mem st.current +
      SIZE st.mem (GET_NEXT (st.mem st.current)) + hdrSize) % M) :
    malloc_body me a st =
      some (malloc_finish me { st with mem := coalMem st.mem st.current }) := by
  simp only [malloc_body]
  rw [if_pos hfree, if_neg hnge, if_pos ⟨hne0, hdf, hcomb⟩]
  have hco : coalesceNext st.mem st.current =
      (true, update st.mem st.current (SET_NEXT (st.mem st.current)
        (GET_NEXT (st.mem (GET_NEXT (st.mem st.current)))))) := by
    simp only [coalesceNext]
    rw [if_pos ⟨hdf, hfree⟩]
  rw [hco]
  simp only [coalMem]
  rw [update_self, update_update_same]

/-- Case 3 (mm.c lines 111-125): the block is too small but merging with its
free successor makes it adequate: the two are coalesced in place and the
merged block is consumed whole. -/
theorem body_coalesce {ms me a : Nat} {st : MMState} {bs : List Nat}
    (v : Valid ms me st bs) (hfree : GET_FREE (st.mem st.current) = 1)
    (hnge : ¬ a ≤ SIZE st.mem st.current)
    (hdf : GET_FREE (st.mem (GET_NEXT (st.mem st.current))) = 1)
    (hcomb : a ≤ (SIZE st.mem st.current +
      SIZE st.mem (GET_NEXT (st.mem st.current)) + hdrSize) % M) :
    ∃ st' bs', malloc_body me a st = some (some (st.current + 8), st') ∧
      BodySucc ms me a st bs st' bs' ∧ SuccDetail st a st.current st' := by
  set t := st.current with ht_def
  have ht : t ∈ bs := v.hcur
  have htL : t ≠ st.last := v.free_ne_last hfree
  obtain ⟨xs, d, rest, hbs, hnext, hgap⟩ := v.split_at ht htL
  have hd_mem : d ∈ bs := by rw [hbs]; simp
  have hd_le : d ≤ st.last := v.mem_le_last hd_mem
  have hd_M : d < M := v.mem_lt_M hd_mem
  have hlast_me := v.last_lt_me
  have hlast_M := v.last_lt_M
  have hdf' : GET_FREE (st.mem d) = 1 := by rw [← hnext]; exact hdf
  have hdL : d ≠ st.last := v.free_ne_last hdf'
  -- ordering facts
  have hpw := chain_pairwise v.hchain
  rw [hbs] at hpw
  obtain ⟨hpw_xs, hpw_tdr, hcross⟩ := List.pairwise_append.mp hpw
  have hxs_lt : ∀ b ∈ xs, b + 8 ≤ t := fun b hb => hcross b hb t (by simp)
  have ht_lt_dr : ∀ y ∈ d :: rest, t + 8 ≤ y := (List.pairwise_cons.mp hpw_tdr).1
  have hpw_dr : List.Pairwise (fun a b => a + 8 ≤ b) (d :: rest) :=
    (List.pairwise_cons.mp hpw_tdr).2
  have hd_rest : ∀ y ∈ rest, d + 8 ≤ y := (List.pairwise_cons.mp hpw_dr).1
  -- chain decomposition
  have hch := v.hchain
  rw [hbs] at hch
  obtain ⟨hch_xs, hch_tdr, hjunc⟩ := List.chain'_append.mp hch
  have hch_dr : List.Chain' (link st.mem) (d :: rest) :=
    (List.chain'_cons.mp hch_tdr).2
  -- the free successor is not the sentinel, so it has a successor in bs
  cases rest with
  | nil =>
    exfalso
    have hgl := v.hgetLast
    rw [hbs, List.getLast?_append_cons] at hgl
    simp at hgl
    exact hdL hgl
  | cons e rest2 =>
  have hde : GET_NEXT (st.mem d) = e := (List.chain'_cons.mp hch_dr).1.1
  have hde_gap : d + 8 ≤ e := (List.chain'_cons.mp hch_dr).1.2
  have hch_er : List.Chain' (link st.mem) (e :: rest2) :=
    (List.chain'_cons.mp hch_dr).2
  have he_mem : e ∈ bs := by rw [hbs]; simp
  have he_le : e ≤ st.last := v.mem_le_last he_mem
  have he_M : e < M := v.mem_lt_M he_mem
  have hS : SIZE st.mem t = d - t - 8 := SIZE_of_next hnext hgap hd_M
  have hSd : SIZE st.mem d = e - d - 8 := SIZE_of_next hde hde_gap he_M
  have hsum : (SIZE st.mem t + SIZE st.mem d + hdrSize) % M = e - t - 8 := by
    unfold hdrSize
    rw [hS, hSd]
    have : d - t - 8 + (e - d - 8) + 8 = e - t - 8 := by omega
    rw [this]
    exact Nat.mod_eq_of_lt (by omega)
  have hcomb' : a ≤ e - t - 8 := by
    rw [hnext, hsum] at hcomb
    exact hcomb
  -- the result memory
  set m' := coalMem st.mem t with hmdef
  have hm'_t : m' t = SET_FREE (SET_NEXT (st.mem t) e) false := by
    rw [hmdef]
    unfold coalMem
    rw [update_self, hnext, hde]
  have hm'_x : ∀ x, x ≠ t → m' x = st.mem x := by
    intro x h1
    rw [hmdef]
    unfold coalMem
    rw [update_ne _ _ _ _ h1]
  have he_even : e % 2 = 0 := v.heven e he_mem
  have hGN_t : GET_NEXT (m' t) = e := by
    rw [hm'_t, GET_NEXT_SET_FREE, GET_NEXT_SET_NEXT _ _ he_even]
  have hGF_t : GET_FREE (m' t) = 0 := by
    rw [hm'_t, GET_FREE_SET_FREE]
    rfl
  have hS' : SIZE m' t = e - t - 8 := SIZE_of_next hGN_t (by omega) he_M
  -- the result state
  refine ⟨{ st with mem := m', current := e }, xs ++ t :: e :: rest2, ?_, ?_, ?_⟩
  · -- body evaluation
    rw [body_coalesce_mem hfree hnge (by rw [hnext]; have := v.mem_pos hd_mem; omega)
      hdf hcomb]
    rw [← hmdef]
    have h1 : GET_NEXT (m' t) ≤ me := by rw [hGN_t]; omega
    have h2 : GET_NEXT (m' (GET_NEXT (m' t))) ≠ 0 := by
      rw [hGN_t, hm'_x e (by omega)]
      exact v.next_pos he_mem
    have hfin := @finish_spec me { st with mem := m' } h1 h2
      (by show t + 8 < M; omega)
    rw [hfin, hGN_t]
  · -- BodySucc
    constructor
    case hfirst' => rfl
    case hlast' => rfl
    case halloc => exact hGF_t
    case hsize => rw [hS']; omega
    case hmem_bs => exact fun x _ hxt => hm'_x x hxt
    case hcurmem => simp
    case hkeep =>
      intro x hx hxf
      rw [hbs] at hx
      simp only [List.mem_append, List.mem_cons] at hx
      rcases hx with h | h | h | h | h
      · simp [h]
      · simp [h]
      · rw [h, hdf'] at hxf; cases hxf
      · simp [h]
      · simp [h]
    case valid' =>
      have hlast_ne_t : st.last ≠ t := Ne.symm htL
      have hm'_last : m' st.last = st.mem st.last := hm'_x _ hlast_ne_t
      refine
        { hms := v.hms, hme := v.hme, hcap := v.hcap
          hfirst := v.hfirst, hlast := v.hlast
          hhead := ?_, hgetLast := ?_, hchain := ?_
          hwrap := ?_, hlastfree := ?_, hcur := ?_, heven := ?_ }
      · rw [head?_append_cons t (e :: rest2) (d :: e :: rest2), ← hbs]
        exact v.hhead
      · rw [List.getLast?_append_cons, List.getLast?_cons_cons]
        have hgl := v.hgetLast
        rw [hbs, List.getLast?_append_cons, List.getLast?_cons_cons,
          List.getLast?_cons_cons] at hgl
        exact hgl
      · refine List.chain'_append.mpr ⟨?_, ?_, ?_⟩
        · refine chain'_link_congr ?_ hch_xs
          intro b hb
          exact congrArg GET_NEXT (hm'_x b (by have := hxs_lt b hb; omega))
        · refine List.chain'_cons.mpr ⟨⟨hGN_t, by omega⟩, ?_⟩
          refine chain'_link_congr ?_ hch_er
          intro b hb
          have hb' : b ∈ d :: e :: rest2 := List.mem_cons_of_mem d hb
          exact congrArg GET_NEXT (hm'_x b (by have := ht_lt_dr b hb'; omega))
        · intro x hx y hy
          simp only [List.head?_cons, Option.mem_def, Option.some_inj] at hy
          subst hy
          have hxm : x ∈ xs := List.mem_of_mem_getLast? hx
          have hlk : link st.mem x t := hjunc x hx t (by simp)
          refine ⟨?_, hlk.2⟩
          show GET_NEXT (m' x) = t
          rw [hm'_x x (by have := hxs_lt x hxm; omega)]
          exact hlk.1
      · show GET_NEXT (m' st.last) = st.first
        rw [hm'_last]
        exact v.hwrap
      · show GET_FREE (m' st.last) = 0
        rw [hm'_last]
        exact v.hlastfree
      · show e ∈ xs ++ t :: e :: rest2
        simp
      · intro b hb
        simp only [List.mem_append, List.mem_cons] at hb
        rcases hb with h | h | h | h
        · exact v.heven b (by rw [hbs]; simp [h])
        · rw [h]; exact v.heven t ht
        · exact v.heven b (by rw [hbs, h]; simp)
        · exact v.heven b (by rw [hbs]; simp [h])
  · -- SuccDetail: the coalescing case
    refine Or.inr (Or.inr ⟨by omega, hdf, rfl, ?_⟩)
    show SIZE m' t = SIZE st.mem t + hdrSize + SIZE st.mem (GET_NEXT (st.mem t))
    rw [hS', hnext, hS, hSd]
    unfold hdrSize
    omega

/-- Any triggering body execution allocates and returns `st.current + 8`. -/
theorem body_spec {ms me a : Nat} {st : MMState} {bs : List Nat}
    (v : Valid ms me st bs) (htr : triggers st.mem a st.current)
    (ha8 : a % 8 = 0) :
    ∃ st' bs', malloc_body me a st = some (some (st.current + 8), st') ∧
      BodySucc ms me a st bs st' bs' ∧ SuccDetail st a st.current st' := by
  obtain ⟨hfree, hcase⟩ := htr
  by_cases hge : a ≤ SIZE st.mem st.current
  · by_cases hlt : SIZE st.mem st.current - a < hdrSize + MIN_SIZE
    · exact body_consume v hfree hge hlt
    · exact body_split v hfree hge (not_lt.mp hlt) ha8
  · rcases hcase with h | ⟨hne0, hdf, hcomb⟩
    · exact absurd h hge
    · exact body_coalesce v hfree hge hdf hcomb

/-! ## The search loop -/

theorem loop_step_some {me a s fuel : Nat} {st : MMState} {rb : Option Nat × MMState}
    (hb : malloc_body me a st = some rb) :
    malloc_loop me a s (fuel + 1) st = some rb := by
  simp only [malloc_loop, hb]

theorem loop_step_none {me a s fuel c : Nat} {st0 : MMState}
    (hb : malloc_body me a { st0 with current := c } = none) :
    malloc_loop me a s (fuel + 1) { st0 with current := c } =
      if GET_NEXT (st0.mem c) = s
      then some (none, { st0 with current := GET_NEXT (st0.mem c) })
      else malloc_loop me a s fuel { st0 with current := GET_NEXT (st0.mem c) } := by
  simp only [malloc_loop, hb]

/-- Inversion for the loop: a finished loop either stopped at a triggering
block, or walked all the way around and restored the cursor. -/
theorem loop_inv {ms me a : Nat} {st0 : MMState} {bs : List Nat}
    (v : Valid ms me st0 bs) (s : Nat) :
    ∀ (fuel c : Nat) (r : Option Nat × MMState), c ∈ bs →
      malloc_loop me a s fuel { st0 with current := c } = some r →
      (∃ t ∈ bs, triggers st0.mem a t ∧
        malloc_body me a { st0 with current := t } = some r) ∨
      r = (none, { st0 with current := s }) := by
  intro fuel
  induction fuel with
  | zero => intro c r _ h; cases h
  | succ fuel ih =>
    intro c r hc h
    cases hb : malloc_body me a { st0 with current := c } with
    | some rb =>
      rw [loop_step_some hb] at h
      have hrb : rb = r := by injection h
      subst hrb
      exact Or.inl ⟨c, hc, triggers_of_body_some hb, hb⟩
    | none =>
      rw [loop_step_none hb] at h
      by_cases hc2 : GET_NEXT (st0.mem c) = s
      · rw [if_pos hc2] at h
        have := Option.some.inj h
        right
        rw [← this, hc2]
      · rw [if_neg hc2] at h
        exact ih (GET_NEXT (st0.mem c)) r (v.next_mem hc) h

theorem simple_malloc_eq_loop {ms me fuel : Nat} {st : MMState} {bs : List Nat}
    (v : Valid ms me st bs) (size : Nat) :
    simple_malloc ms me fuel st size =
      malloc_loop me (align_up size hdrSize) st.current fuel st := by
  have h1 : ¬ st.first = 0 := by have := v.first_pos; omega
  simp only [simple_malloc]
  rw [if_neg h1, if_neg h1]

/-- Failure of `simple_malloc` from a well-formed state is side-effect free:
the returned state is exactly the input state. -/
theorem malloc_fail {ms me fuel size : Nat} {st st' : MMState} {bs : List Nat}
    (v : Valid ms me st bs)
    (h : simple_malloc ms me fuel st size = some (none, st')) : st' = st := by
  rw [simple_malloc_eq_loop v] at h
  have h' := loop_inv v st.current fuel st.current (none, st') v.hcur h
  rcases h' with ⟨t, htm, htr, hb⟩ | hr
  · obtain ⟨st'', bs', hbody, _, _⟩ :=
      body_spec (v.withCurrent htm) htr (align_up_mod8 size)
    rw [hbody] at hb
    have := Option.some.inj hb
    cases this
  · have : st' = { st with current := st.current } := (Prod.mk.injEq _ _ _ _).mp hr.symm |>.2.symm
    rw [this]

/-- Success of `simple_malloc` from a well-formed state: full characterization
of the returned pointer and state. -/
theorem malloc_success {ms me fuel size : Nat} {st st' : MMState} {bs : List Nat}
    {p : Nat} (v : Valid ms me st bs)
    (h : simple_malloc ms me fuel st size = some (some p, st')) :
    ∃ t bs', p = t + 8 ∧ t ∈ bs ∧ GET_FREE (st.mem t) = 1 ∧
      Valid ms me st' bs' ∧ st'.first = st.first ∧ st'.last = st.last ∧
      GET_FREE (st'.mem t) = 0 ∧ align_up size hdrSize ≤ SIZE st'.mem t ∧
      (∀ x ∈ bs, x ≠ t → st'.mem x = st.mem x) ∧
      (∀ x ∈ bs, GET_FREE (st.mem x) = 0 → x ∈ bs') ∧ t ∈ bs' ∧
      SuccDetail st (align_up size hdrSize) t st' := by
  rw [simple_malloc_eq_loop v] at h
  have h' := loop_inv v st.current fuel st.current (some p, st') v.hcur h
  rcases h' with ⟨t, htm, htr, hb⟩ | hr
  · obtain ⟨st'', bs', hbody, hsucc, hdet⟩ :=
      body_spec (v.withCurrent htm) htr (align_up_mod8 size)
    rw [hbody] at hb
    have hpair := Option.some.inj hb
    injection hpair with hp' hst
    have hp : t + 8 = p := Option.some.inj hp'
    subst hst
    exact ⟨t, bs', hp.symm, htm, htr.1, hsucc.valid', hsucc.hfirst',
      hsucc.hlast', hsucc.halloc, hsucc.hsize, hsucc.hmem_bs, hsucc.hkeep,
      hsucc.hcurmem, hdet⟩
  · exfalso
    have := congrArg Prod.fst hr
    cases this

/-! ## Termination: the walk visits at most one full cycle -/

theorem first_trigger_split {T : Nat → Prop} :
    ∀ (l : List Nat), (∃ b ∈ l, T b) →
      ∃ pre t post, l = pre ++ t :: post ∧ (∀ b ∈ pre, ¬ T b) ∧ T t := by
  intro l
  induction l with
  | nil => rintro ⟨b, hb, _⟩; cases hb
  | cons x l' ih =>
    intro hex
    by_cases hx : T x
    · exact ⟨[], x, l', rfl, by simp, hx⟩
    · have hex' : ∃ b ∈ l', T b := by
        obtain ⟨b, hb, hTb⟩ := hex
        rcases List.mem_cons.mp hb with h | h
        · exact absurd (h ▸ hTb) hx
        · exact ⟨b, h, hTb⟩
      obtain ⟨pre, t, post, hl, hpre, ht⟩ := ih hex'
      refine ⟨x :: pre, t, post, by rw [hl]; rfl, ?_, ht⟩
      intro b hb
      rcases List.mem_cons.mp hb with h | h
      · rw [h]; exact hx
      · exact hpre b h

/-- Walking a stretch of non-triggering blocks whose links lead back to the
start exits the loop with the cursor restored. -/
theorem loop_none_all {me a s : Nat} {st0 : MMState} :
    ∀ (vs : List Nat) (fuel : Nat), vs ≠ [] → vs.length ≤ fuel →
      List.Chain' (fun b b' => GET_NEXT (st0.mem b) = b') (vs ++ [s]) →
      (∀ b ∈ vs, malloc_body me a { st0 with current := b } = none) →
      (∀ b ∈ vs.tail, b ≠ s) →
      malloc_loop me a s fuel { st0 with current := vs.headI } =
        some (none, { st0 with current := s }) := by
  intro vs
  induction vs with
  | nil => intro fuel h; cases h rfl
  | cons v vs' ih =>
    intro fuel _ hfuel hch hnone htl
    cases fuel with
    | zero => simp at hfuel
    | succ fuel =>
      have hv : malloc_body me a { st0 with current := v } = none :=
        hnone v (by simp)
      show malloc_loop me a s (fuel + 1) { st0 with current := v } =
        some (none, { st0 with current := s })
      rw [loop_step_none hv]
      cases vs' with
      | nil =>
        have hlink : GET_NEXT (st0.mem v) = s := (List.chain'_cons.mp hch).1
        rw [if_pos hlink, hlink]
      | cons w vs'' =>
        have hlink : GET_NEXT (st0.mem v) = w := (List.chain'_cons.mp hch).1
        have hw : w ≠ s := htl w (by simp)
        rw [hlink, if_neg hw]
        have := ih fuel (by simp) (by simp at hfuel ⊢; omega)
          ((List.chain'_cons.mp hch).2)
          (fun b hb => hnone b (List.mem_cons_of_mem v hb))
          (fun b hb => htl b (List.mem_cons_of_mem w hb))
        exact this

/-- Walking a stretch of non-triggering blocks and then reaching a triggering
one returns that block's body result. -/
theorem head?_append_singleton (l : List Nat) (x : Nat) :
    (l ++ [x]).head? = some ((l ++ [x]).headI) := by
  cases l <;> rfl

theorem loop_reaches {me a s : Nat} {st0 : MMState} :
    ∀ (pre : List Nat) (t fuel : Nat) (r : Option Nat × MMState),
      pre.length + 1 ≤ fuel →
      List.Chain' (fun b b' => GET_NEXT (st0.mem b) = b') (pre ++ [t]) →
      (∀ b ∈ pre, malloc_body me a { st0 with current := b } = none) →
      (∀ b ∈ pre.tail, b ≠ s) → (pre = [] ∨ t ≠ s) →
      malloc_body me a { st0 with current := t } = some r →
      malloc_loop me a s fuel { st0 with current := (pre ++ [t]).headI } = some r := by
  intro pre
  induction pre with
  | nil =>
    intro t fuel r hfuel _ _ _ _ hb
    cases fuel with
    | zero => omega
    | succ fuel =>
      show malloc_loop me a s (fuel + 1) { st0 with current := t } = some r
      exact loop_step_some hb
  | cons q pre' ih =>
    intro t fuel r hfuel hch hnone htl hts hb
    cases fuel with
    | zero => simp at hfuel
    | succ fuel =>
      have hq : malloc_body me a { st0 with current := q } = none :=
        hnone q (by simp)
      show malloc_loop me a s (fuel + 1) { st0 with current := q } = some r
      rw [loop_step_none hq]
      have hts' : t ≠ s := hts.resolve_left (by simp)
      have hch' := List.chain'_cons'.mp
        (show List.Chain' (fun b b' => GET_NEXT (st0.mem b) = b')
          (q :: (pre' ++ [t])) by simpa using hch)
      have hlink : GET_NEXT (st0.mem q) = (pre' ++ [t]).headI :=
        hch'.1 _ (by rw [head?_append_singleton]; exact Option.mem_def.mpr rfl)
      have hne : (pre' ++ [t]).headI ≠ s := by
        cases pre' with
        | nil => simpa using hts'
        | cons w pre'' =>
          show w ≠ s
          exact htl w (by simp)
      rw [hlink, if_neg hne]
      exact ih t fuel r (by simp at hfuel ⊢; omega)
        hch'.2
        (fun b hb => hnone b (List.mem_cons_of_mem q hb))
        (fun b hb => htl b (by
          cases pre' with
          | nil => cases hb
          | cons w pre'' => exact List.mem_cons_of_mem w hb))
        (by
          cases pre' with
          | nil => exact Or.inl rfl
          | cons w pre'' => exact Or.inr hts')
        hb

/-- From a well-formed state, a fuel of one unit per block settles the walk:
it either allocates at the first triggering block of the cycle order, or
returns to the start and fails with the state unchanged. -/
theorem loop_total_cases {ms me a : Nat} {st : MMState} {bs : List Nat}
    (v : Valid ms me st bs) (ha8 : a % 8 = 0) (fuel : Nat)
    (hfuel : bs.length ≤ fuel) :
    (∃ p st', malloc_loop me a st.current fuel st = some (some p, st')) ∨
    ((∀ b ∈ bs, ¬ triggers st.mem a b) ∧
      malloc_loop me a st.current fuel st = some (none, st)) := by
  set s := st.current with hs_def
  obtain ⟨xs, ys, hbs⟩ := List.append_of_mem v.hcur
  have hnd : bs.Nodup := chain_nodup v.hchain
  rw [hbs] at hnd
  obtain ⟨hnd_xs, hnd_sys, hdisj⟩ := List.nodup_append.mp hnd
  have hs_xs : s ∉ xs := fun h => hdisj h (by simp)
  have hs_ys : s ∉ ys := (List.nodup_cons.mp hnd_sys).1
  -- chain pieces
  have hch := v.hchain
  rw [hbs] at hch
  obtain ⟨hch_xs, hch_sys, hjun1⟩ := List.chain'_append.mp hch
  have hgl : (s :: ys).getLast? = some st.last := by
    have := v.hgetLast
    rw [hbs, List.getLast?_append_cons] at this
    exact this
  -- the head of xs ++ [s] is first
  have hhead_xss : (xs ++ [s]).head? = some st.first := by
    cases xs with
    | nil =>
      have h0 := v.hhead
      rw [hbs] at h0
      simp at h0
      simp
      omega
    | cons q xs' =>
      have h0 := v.hhead
      rw [hbs] at h0
      simp at h0
      simp
      omega
  -- the full next-chain around the cycle
  have hcycle_chain : List.Chain'
      (fun b b' => GET_NEXT (st.mem b) = b') ((s :: ys) ++ (xs ++ [s])) := by
    refine List.chain'_append.mpr ⟨hch_sys.imp (fun _ _ h => h.1), ?_, ?_⟩
    · refine List.chain'_append.mpr ⟨hch_xs.imp (fun _ _ h => h.1),
        List.chain'_singleton s, ?_⟩
      intro x hx y hy
      simp only [List.head?_cons, Option.mem_def, Option.some_inj] at hy
      subst hy
      exact (hjun1 x hx s (by simp)).1
    · intro x hx y hy
      have hxl : x = st.last := by
        rw [hgl] at hx
        exact (Option.some.inj (Option.mem_def.mp hx)).symm
      rw [hhead_xss] at hy
      have hyf : y = st.first := (Option.some.inj (Option.mem_def.mp hy)).symm
      rw [hxl, hyf]
      exact v.hwrap
  set cyc := s :: (ys ++ xs) with hcyc_def
  have hcyc_append : cyc ++ [s] = (s :: ys) ++ (xs ++ [s]) := by
    simp [hcyc_def]
  have hcyc_len : cyc.length = bs.length := by
    rw [hcyc_def, hbs]
    simp
    omega
  have hcyc_mem : ∀ b, b ∈ cyc ↔ b ∈ bs := by
    intro b
    rw [hcyc_def, hbs]
    simp
    tauto
  have hcyc_tail : ∀ b ∈ cyc.tail, b ≠ s := by
    intro b hb he
    rw [hcyc_def] at hb
    simp only [List.tail_cons, List.mem_append] at hb
    rcases hb with h | h
    · exact hs_ys (he ▸ h)
    · exact hs_xs (he ▸ h)
  have hchain_cyc : List.Chain' (fun b b' => GET_NEXT (st.mem b) = b') (cyc ++ [s]) := by
    rw [hcyc_append]
    exact hcycle_chain
  by_cases hex : ∃ b ∈ bs, triggers st.mem a b
  · -- some block triggers: the walk stops at the first one and allocates
    left
    have hex' : ∃ b ∈ cyc, triggers st.mem a b := by
      obtain ⟨b, hb, ht⟩ := hex
      exact ⟨b, (hcyc_mem b).mpr hb, ht⟩
    obtain ⟨pre, t, post, hcycsplit, hpre, htrig⟩ :=
      first_trigger_split cyc hex'
    have htmem : t ∈ bs := by
      rw [← hcyc_mem]
      rw [hcycsplit]
      simp
    obtain ⟨st'', bs', hbody, _, _⟩ :=
      body_spec (v.withCurrent htmem) htrig ha8
    have hchain_pre : List.Chain' (fun b b' => GET_NEXT (st.mem b) = b')
        (pre ++ [t]) := by
      have h0 := hchain_cyc
      rw [hcycsplit, List.append_cons pre t post, List.append_assoc] at h0
      exact (List.chain'_append.mp h0).1
    have hpre_tail : ∀ b ∈ pre.tail, b ≠ s := by
      intro b hb
      refine hcyc_tail b ?_
      rw [hcycsplit]
      cases pre with
      | nil => cases hb
      | cons q pre' =>
        simp only [List.tail_cons] at hb ⊢
        simp [hb]
    have hdisj2 : pre = [] ∨ t ≠ s := by
      cases pre with
      | nil => exact Or.inl rfl
      | cons q pre' =>
        refine Or.inr (hcyc_tail t ?_)
        rw [hcycsplit]
        simp
    have hheadI : (pre ++ [t]).headI = s := by
      cases pre with
      | nil =>
        have : cyc = t :: post := by simpa using hcycsplit
        rw [hcyc_def] at this
        injection this with h1 _
        simpa using h1.symm
      | cons q pre' =>
        have : cyc = q :: (pre' ++ t :: post) := by simpa using hcycsplit
        rw [hcyc_def] at this
        injection this with h1 _
        simpa using h1.symm
    have hlen_pre : pre.length + 1 ≤ fuel := by
      have : cyc.length = pre.length + 1 + post.length := by
        rw [hcycsplit]
        simp
        omega
      omega
    have := loop_reaches pre t fuel (some (t + 8), st'') hlen_pre hchain_pre
      (fun b hb => body_none (fun hcon => hpre b hb hcon)) hpre_tail hdisj2 hbody
    rw [hheadI] at this
    exact ⟨t + 8, st'', this⟩
  · -- no block triggers: the walk goes full circle and fails cleanly
    right
    push_neg at hex
    refine ⟨hex, ?_⟩
    have hnone : ∀ b ∈ cyc, malloc_body me a { st with current := b } = none := by
      intro b hb
      exact body_none (fun hcon => hex b ((hcyc_mem b).mp hb) hcon)
    have := loop_none_all cyc fuel (by rw [hcyc_def]; simp) (by omega)
      hchain_cyc hnone hcyc_tail
    have hheadI : cyc.headI = s := by rw [hcyc_def]; rfl
    rw [hheadI] at this
    exact this

/-- With one unit of fuel per block, the search loop always finishes. -/
theorem malloc_total {ms me fuel size : Nat} {st : MMState} {bs : List Nat}
    (v : Valid ms me st bs) (hfuel : bs.length ≤ fuel) :
    ∃ r, simple_malloc ms me fuel st size = some r := by
  rw [simple_malloc_eq_loop v]
  rcases loop_total_cases v (align_up_mod8 size) fuel hfuel with ⟨p, st', h⟩ | ⟨_, h⟩
  · exact ⟨(some p, st'), h⟩
  · exact ⟨(none, st), h⟩

/-- If any block of the arena triggers (in particular if any free block is
large enough, alone or together with a free successor), the allocation
succeeds. -/
theorem malloc_succeeds_of_trigger {ms me fuel size : Nat} {st : MMState}
    {bs : List Nat} (v : Valid ms me st bs) (hfuel : bs.length ≤ fuel)
    (hex : ∃ b ∈ bs, triggers st.mem (align_up size hdrSize) b) :
    ∃ p st', simple_malloc ms me fuel st size = some (some p, st') := by
  rw [simple_malloc_eq_loop v]
  rcases loop_total_cases v (align_up_mod8 size) fuel hfuel with h | ⟨hno, _⟩
  · exact h
  · obtain ⟨b, hb, htr⟩ := hex
    exact absurd htr (hno b hb)

/-! ## Initialization -/

/-- The state built by a successful `simple_init`, with its four header writes
collapsed to a two-point update. -/
theorem simple_init_eq {ms me : Nat} {st : MMState} (h0 : st.first = 0)
    (hcond : (alignedStart ms + 2 * hdrSize + MIN_SIZE) % M ≤ alignedEnd me)
    (hne : sub64 (alignedEnd me) (hdrSize * hdrSize) ≠ alignedStart ms) :
    simple_init ms me st =
      { mem := update (update st.mem (alignedStart ms)
          (SET_NEXT (SET_FREE (st.mem (alignedStart ms)) true)
            (sub64 (alignedEnd me) (hdrSize * hdrSize))))
          (sub64 (alignedEnd me) (hdrSize * hdrSize))
          (SET_FREE (SET_NEXT (st.mem (sub64 (alignedEnd me) (hdrSize * hdrSize)))
            (alignedStart ms)) false),
        first := alignedStart ms, current := alignedStart ms,
        last := sub64 (alignedEnd me) (hdrSize * hdrSize) } := by
  simp only [simple_init]
  rw [if_pos h0, if_pos hcond]
  rw [MMState.mk.injEq]
  refine ⟨?_, rfl, rfl, rfl⟩
  simp only [update_self]
  simp only [update_update_same]
  rw [update_ne _ _ _ _ hne]

/-- Arithmetic consequences of `Sane`. -/
theorem Sane.facts {ms me : Nat} (hs : Sane ms me) :
    alignedStart ms = ms + ms % 64 ∧ 0 < alignedStart ms ∧
      alignedStart ms % 2 = 0 ∧ 64 ≤ alignedEnd me ∧ alignedEnd me < M ∧
      alignedEnd me % 2 = 0 ∧
      sub64 (alignedEnd me) (hdrSize * hdrSize) = alignedEnd me - 64 := by
  obtain ⟨h1, h2, h3⟩ := hs
  have hE : alignedEnd me ≤ me := by unfold alignedEnd; omega
  have hE64 : 64 ≤ alignedEnd me := by omega
  have hA : alignedStart ms = ms + ms % 64 := by
    unfold alignedStart M at *
    omega
  refine ⟨hA, by omega, by omega, hE64, by omega, ?_, ?_⟩
  · unfold alignedEnd
    omega
  · have : hdrSize * hdrSize = 64 := by unfold hdrSize; rfl
    rw [this]
    exact sub64_eq _ _ hE64 (by omega)

/-- From an uninitialized state with a sane arena, `simple_init` produces a
well-formed two-block state: the big free block at the aligned start and the
sentinel (placed 64 bytes below the aligned end by the pointer-arithmetic
in line 64 of mm.c). -/
theorem init_valid {ms me : Nat} {st : MMState} (hs : Sane ms me)
    (h0 : st.first = 0) :
    Valid ms me (simple_init ms me st)
      [alignedStart ms, alignedEnd me - 64] := by
  obtain ⟨hA, hApos, hAeven, hE64, hEM, hEeven, hL⟩ := hs.facts
  obtain ⟨h1, h2, h3⟩ := hs
  set A := alignedStart ms
  set E := alignedEnd me
  have hAE : A + 72 ≤ E := by omega
  have hALlt : A + 8 ≤ E - 64 := by omega
  have hcond : (A + 2 * hdrSize + MIN_SIZE) % M ≤ E := by
    unfold hdrSize MIN_SIZE M at *
    omega
  have hne : sub64 E (hdrSize * hdrSize) ≠ A := by rw [hL]; omega
  rw [simple_init_eq h0 hcond hne, hL]
  set L := E - 64
  have hLeven : L % 2 = 0 := by omega
  set wA := SET_NEXT (SET_FREE (st.mem A) true) L with hwA
  set wL := SET_FREE (SET_NEXT (st.mem L) A) false with hwL
  have hmA : update (update st.mem A wA) L wL A = wA :=
    by rw [update_ne _ _ _ _ (by omega : A ≠ L), update_self]
  have hmL : update (update st.mem A wA) L wL L = wL := update_self _ _ _
  have hGNA : GET_NEXT (update (update st.mem A wA) L wL A) = L := by
    rw [hmA, hwA, GET_NEXT_SET_NEXT _ _ hLeven]
  have hGNL : GET_NEXT (update (update st.mem A wA) L wL L) = A := by
    rw [hmL, hwL, GET_NEXT_SET_FREE, GET_NEXT_SET_NEXT _ _ hAeven]
  refine
    { hms := h1, hme := h2, hcap := h3
      hfirst := rfl, hlast := rfl
      hhead := rfl, hgetLast := rfl
      hchain := ?_, hwrap := hGNL, hlastfree := ?_
      hcur := by simp, heven := ?_ }
  · exact List.chain'_cons.mpr ⟨⟨hGNA, hALlt⟩, List.chain'_singleton L⟩
  · show GET_FREE (update (update st.mem A wA) L wL L) = 0
    rw [hmL, hwL, GET_FREE_SET_FREE]
    rfl
  · intro b hb
    rcases List.mem_cons.mp hb with h | h
    · omega
    · simp at h
      omega

/-- A `simple_malloc` call from an uninitialized state with a sane arena is
the same call made from the freshly initialized state. -/
theorem malloc_pristine_eq {ms me fuel size : Nat} {st : MMState}
    (h0 : st.first = 0) (hs : Sane ms me) :
    simple_malloc ms me fuel st size =
      simple_malloc ms me fuel (simple_init ms me st) size := by
  have v := init_valid hs h0
  have hne : ¬ (simple_init ms me st).first = 0 := by
    have := v.first_pos
    omega
  simp only [simple_malloc]
  rw [if_pos h0, if_neg hne, if_neg hne, if_neg hne]

/-! ## Release -/

theorem free_null (st : MMState) : simple_free st 0 = st := by
  simp [simple_free]

theorem free_already {st : MMState} {p : Nat} (h : p ≠ 0)
    (hf : GET_FREE (st.mem (sub64 p hdrSize)) = 1) : simple_free st p = st := by
  simp [simple_free, h, hf]

theorem free_alloc {st : MMState} {p : Nat} (h : p ≠ 0)
    (hf : GET_FREE (st.mem (sub64 p hdrSize)) = 0) :
    simple_free st p =
      { st with
          mem := update st.mem (sub64 p hdrSize)
            (SET_FREE (st.mem (sub64 p hdrSize)) true) } := by
  simp [simple_free, h, hf]

/-- Releasing an allocated non-sentinel block of a well-formed state preserves
well-formedness with the very same block list. -/
theorem free_valid {ms me : Nat} {st : MMState} {bs : List Nat}
    (v : Valid ms me st bs) {b : Nat} (hb : b ∈ bs) (hbL : b ≠ st.last)
    (hal : GET_FREE (st.mem b) = 0) :
    Valid ms me (simple_free st (b + 8)) bs := by
  have hbM : b + 8 < M := by
    have h1 := v.mem_le_last hb
    have h2 := v.hlast
    have h3 := v.hme
    have h4 : alignedEnd me ≤ me := by unfold alignedEnd; omega
    have h5 := v.hcap
    omega
  have hsub : sub64 (b + 8) hdrSize = b := by
    unfold hdrSize
    rw [sub64_eq _ _ (by omega) hbM]
    omega
  have hp0 : b + 8 ≠ 0 := by omega
  rw [free_alloc hp0 (by rw [hsub]; exact hal), hsub]
  have hGN : ∀ x, GET_NEXT (update st.mem b (SET_FREE (st.mem b) true) x) =
      GET_NEXT (st.mem x) := by
    intro x
    by_cases hx : x = b
    · rw [hx, update_self, GET_NEXT_SET_FREE]
    · rw [update_ne _ _ _ _ hx]
  exact { v with
    hchain := chain'_link_congr (fun x _ => hGN x) v.hchain
    hwrap := by rw [hGN]; exact v.hwrap
    hlastfree := by
      show GET_FREE (update st.mem b (SET_FREE (st.mem b) true) st.last) = 0
      rw [update_ne _ _ _ _ (Ne.symm hbL)]
      exact v.hlastfree
    hcur := v.hcur }

/-! ## Disjointness of distinct blocks -/

/-- The payload of a non-sentinel block ends at or before any later block. -/
theorem block_end_le {ms me : Nat} {st : MMState} {bs : List Nat}
    (v : Valid ms me st bs) {b b' : Nat} (hb : b ∈ bs) (hb' : b' ∈ bs)
    (hlt : b < b') (hbL : b ≠ st.last) :
    b + 8 + SIZE st.mem b ≤ b' := by
  obtain ⟨xs, d, rest, hbs, hnext, hgap⟩ := v.split_at hb hbL
  have hd_mem : d ∈ bs := by rw [hbs]; simp
  have hd_M : d < M := v.mem_lt_M hd_mem
  have hS : SIZE st.mem b = d - b - 8 := SIZE_of_next hnext hgap hd_M
  have hpw := chain_pairwise v.hchain
  rw [hbs] at hpw
  obtain ⟨hpw_xs, hpw_tdr, hcross⟩ := List.pairwise_append.mp hpw
  have hxs_lt : ∀ y ∈ xs, y + 8 ≤ b := fun y hy => hcross y hy b (by simp)
  have hpw_dr : List.Pairwise (fun a b => a + 8 ≤ b) (d :: rest) :=
    (List.pairwise_cons.mp hpw_tdr).2
  have hd_rest : ∀ y ∈ rest, d + 8 ≤ y := (List.pairwise_cons.mp hpw_dr).1
  have hb' : b' ∈ xs ∨ b' = b ∨ b' = d ∨ b' ∈ rest := by
    rw [hbs] at hb'
    simpa using hb'
  rcases hb' with h | h | h | h
  · have := hxs_lt b' h
    omega
  · omega
  · omega
  · have := hd_rest b' h
    omega

theorem Valid.mem_add8_lt {ms me : Nat} {st : MMState} {bs : List Nat}
    (v : Valid ms me st bs) {b : Nat} (hb : b ∈ bs) : b + 8 < M := by
  have h1 := v.mem_le_last hb
  have h2 := v.hlast
  have h3 := v.hme
  have h4 : alignedEnd me ≤ me := by unfold alignedEnd; omega
  have h5 := v.hcap
  omega

theorem Valid.sub64_payload {ms me : Nat} {st : MMState} {bs : List Nat}
    (v : Valid ms me st bs) {b : Nat} (hb : b ∈ bs) :
    sub64 (b + 8) hdrSize = b := by
  unfold hdrSize
  rw [sub64_eq _ _ (by omega) (v.mem_add8_lt hb)]
  omega

/-! ## Traces of Allocate and Release calls -/

/-- The bookkeeping carried along a trace: each live allocation is the payload
of an allocated non-sentinel block, its recorded grant is that block's
current `SIZE`, and distinct live entries have distinct pointers. -/
def LiveInv (st : MMState) (bs : List Nat) (live : List (Nat × Nat)) : Prop :=
  (∀ pg ∈ live, ∃ b, b ∈ bs ∧ pg.1 = b + 8 ∧ b ≠ st.last ∧
    GET_FREE (st.mem b) = 0 ∧ pg.2 = SIZE st.mem b) ∧
  live.Pairwise (fun x y => x.1 ≠ y.1)

theorem pairwise_erase_firsts {l : List (Nat × Nat)} {pg : Nat × Nat}
    (hpw : l.Pairwise (fun x y => x.1 ≠ y.1)) (hin : pg ∈ l) :
    ∀ qh ∈ l.erase pg, qh.1 ≠ pg.1 := by
  induction l with
  | nil => simp
  | cons x l' ih =>
    rw [List.pairwise_cons] at hpw
    by_cases hx : x = pg
    · subst hx
      rw [List.erase_cons_head]
      intro qh hq he
      exact hpw.1 qh hq he.symm
    · rw [List.erase_cons_tail (by simp [hx])]
      intro qh hq
      rcases List.mem_cons.mp hq with h | h
      · subst h
        have hpg' : pg ∈ l' := by
          rcases List.mem_cons.mp hin with h2 | h2
          · exact absurd h2.symm hx
          · exact h2
        exact hpw.1 pg hpg'
      · exact ih hpw.2 (by
          rcases List.mem_cons.mp hin with h2 | h2
          · exact absurd h2.symm hx
          · exact h2) qh h

/-- A successful allocation extends the live set and keeps the invariant. -/
theorem alloc_step {ms me fuel size p : Nat} {st st' : MMState} {bs : List Nat}
    {live : List (Nat × Nat)} (v : Valid ms me st bs) (hinv : LiveInv st bs live)
    (hr : simple_malloc ms me fuel st size = some (some p, st')) :
    ∃ bs', Valid ms me st' bs' ∧
      LiveInv st' bs' ((p, SIZE st'.mem (sub64 p hdrSize)) :: live) := by
  obtain ⟨t, bs', hp, htmem, hfree, v', hfirst', hlast', halloc, hsize, hframe,
    hkeep, htmem', _⟩ := malloc_success v hr
  have hsubp : sub64 p hdrSize = t := by
    rw [hp]
    exact v.sub64_payload htmem
  have htL : t ≠ st.last := v.free_ne_last hfree
  refine ⟨bs', v', ⟨?_, ?_⟩⟩
  · intro pg hpg
    rcases List.mem_cons.mp hpg with he | hm
    · subst he
      refine ⟨t, htmem', by simp [hp], by rw [hlast']; exact htL, halloc, ?_⟩
      rw [hsubp]
    · obtain ⟨b, hbmem, hb1, hbL, hbflag, hb2⟩ := hinv.1 pg hm
      have hbt : b ≠ t := by
        intro he2
        rw [he2, hfree] at hbflag
        cases hbflag
      have hmem_b : st'.mem b = st.mem b := hframe b hbmem hbt
      refine ⟨b, hkeep b hbmem hbflag, hb1, by rw [hlast']; exact hbL, ?_, ?_⟩
      · rw [hmem_b]
        exact hbflag
      · rw [SIZE_congr b (by rw [hmem_b])]
        exact hb2
  · refine List.pairwise_cons.mpr ⟨?_, hinv.2⟩
    intro y hy
    obtain ⟨b, _, hb1, _, hbflag, _⟩ := hinv.1 y hy
    have hbt : b ≠ t := by
      intro he2
      rw [he2, hfree] at hbflag
      cases hbflag
    show p ≠ y.1
    rw [hp, hb1]
    omega

/-- Releasing a live pointer keeps the invariant, erasing its record. -/
theorem release_step {ms me : Nat} {st : MMState} {bs : List Nat}
    {live : List (Nat × Nat)} {p g : Nat} (v : Valid ms me st bs)
    (hinv : LiveInv st bs live) (hp : (p, g) ∈ live) :
    ∃ bs', Valid ms me (simple_free st p) bs' ∧
      LiveInv (simple_free st p) bs' (live.erase (p, g)) := by
  obtain ⟨b, hbmem, hb1, hbL, hbflag, hb2⟩ := hinv.1 (p, g) hp
  have hb1' : p = b + 8 := hb1
  have hfr : ∀ x, x ≠ b → (simple_free st p).mem x = st.mem x := by
    intro x hx
    rw [hb1', free_alloc (by omega) (by rw [v.sub64_payload hbmem]; exact hbflag)]
    show update st.mem (sub64 (b + 8) hdrSize) _ x = st.mem x
    rw [v.sub64_payload hbmem]
    exact update_ne _ _ _ _ hx
  have hlast_eq : (simple_free st p).last = st.last := by
    rw [hb1', free_alloc (by omega) (by rw [v.sub64_payload hbmem]; exact hbflag)]
  have hfirsts := pairwise_erase_firsts hinv.2 hp
  refine ⟨bs, ?_, ⟨?_, List.Pairwise.sublist (List.erase_sublist _ _) hinv.2⟩⟩
  · rw [hb1']
    exact free_valid v hbmem hbL hbflag
  · intro qh hq
    have hql : qh ∈ live := List.mem_of_mem_erase hq
    obtain ⟨bq, hbqmem, hq1, hqL, hqflag, hq2⟩ := hinv.1 qh hql
    have hqp : qh.1 ≠ p := hfirsts qh hq
    have hbqb : bq ≠ b := by
      intro he
      rw [he] at hq1
      exact hqp (hq1.trans hb1'.symm)
    refine ⟨bq, hbqmem, hq1, by rw [hlast_eq]; exact hqL, ?_, ?_⟩
    · rw [hfr bq hbqb]
      exact hqflag
    · rw [SIZE_congr bq (by rw [hfr bq hbqb])]
      exact hq2

/-- Reachable allocator configurations: start from any uninitialized state,
then any sequence of completed `simple_malloc` calls (of any size and fuel),
`simple_free` of live pointers, and the no-op releases (null and
already-free).  Each successful allocation records its pointer together with
the payload granted (the block's `SIZE` at return). -/
inductive Reach (ms me : Nat) : MMState → List (Nat × Nat) → Prop where
  | start (mem0 : Nat → Nat) (c l : Nat) : Reach ms me ⟨mem0, 0, c, l⟩ []
  | allocFail (st : MMState) (live : List (Nat × Nat)) (fuel size : Nat)
      (st' : MMState) (h : Reach ms me st live)
      (hr : simple_malloc ms me fuel st size = some (none, st')) :
      Reach ms me st' live
  | allocOk (st : MMState) (live : List (Nat × Nat)) (fuel size p : Nat)
      (st' : MMState) (h : Reach ms me st live)
      (hr : simple_malloc ms me fuel st size = some (some p, st')) :
      Reach ms me st' ((p, SIZE st'.mem (sub64 p hdrSize)) :: live)
  | release (st : MMState) (live : List (Nat × Nat)) (p g : Nat)
      (h : Reach ms me st live) (hp : (p, g) ∈ live) :
      Reach ms me (simple_free st p) (live.erase (p, g))
  | releaseNoop (st : MMState) (live : List (Nat × Nat)) (p : Nat)
      (h : Reach ms me st live)
      (hp : p = 0 ∨ GET_FREE (st.mem (sub64 p hdrSize)) = 1) :
      Reach ms me (simple_free st p) live

/-- Every reachable configuration is either still uninitialized (with nothing
live) or well-formed with the live-set invariant. -/
theorem reach_inv {ms me : Nat} (hs : Sane ms me) {st : MMState}
    {live : List (Nat × Nat)} (h : Reach ms me st live) :
    (st.first = 0 ∧ live = []) ∨
      ∃ bs, Valid ms me st bs ∧ LiveInv st bs live := by
  induction h with
  | start mem0 c l => exact Or.inl ⟨rfl, rfl⟩
  | allocFail st live fuel size st' h hr ih =>
    rcases ih with ⟨h0, hl⟩ | ⟨bs, v, hinv⟩
    · subst hl
      rw [malloc_pristine_eq h0 hs] at hr
      have v1 := init_valid hs h0
      have he := malloc_fail v1 hr
      subst he
      exact Or.inr ⟨_, v1, by simp, List.Pairwise.nil⟩
    · have he := malloc_fail v hr
      subst he
      exact Or.inr ⟨bs, v, hinv⟩
  | allocOk st live fuel size p st' h hr ih =>
    rcases ih with ⟨h0, hl⟩ | ⟨bs, v, hinv⟩
    · subst hl
      rw [malloc_pristine_eq h0 hs] at hr
      exact Or.inr (alloc_step (init_valid hs h0) ⟨by simp, List.Pairwise.nil⟩ hr)
    · exact Or.inr (alloc_step v hinv hr)
  | release st live p g h hp ih =>
    rcases ih with ⟨h0, hl⟩ | ⟨bs, v, hinv⟩
    · subst hl
      cases hp
    · exact Or.inr (release_step v hinv hp)
  | releaseNoop st live p h hp ih =>
    have hid : simple_free st p = st := by
      rcases hp with hp | hp
      · rw [hp]
        exact free_null st
      · by_cases hp0 : p = 0
        · rw [hp0]
          exact free_null st
        · exact free_already hp0 hp
    rw [hid]
    exact ih

/-! ## Concrete states used to exercise the theorems -/

/-- All-zero garbage memory. -/
def zeroMem : Nat → Nat := fun _ => 0

/-- The uninitialized allocator over all-zero memory (globals are NULL). -/
def zeroState : MMState := ⟨zeroMem, 0, 0, 0⟩

/-- The memory of the two-block state reached by `simple_init 64 1024`:
the free block at 64 stores `960 | 1` and the sentinel at 960 stores `64`. -/
def wMem : Nat → Nat := fun x => if x = 64 then 961 else if x = 960 then 64 else 0

/-- The two-block state reached by `simple_init 64 1024`. -/
def wState : MMState := ⟨wMem, 64, 64, 960⟩

theorem wValid : Valid 64 1024 wState [64, 960] := by
  refine
    { hms := by decide, hme := by norm_num [M], hcap := by decide
      hfirst := by decide, hlast := by decide
      hhead := rfl, hgetLast := rfl
      hchain := List.chain'_cons.mpr ⟨⟨by decide, by decide⟩,
        List.chain'_singleton _⟩
      hwrap := by decide, hlastfree := by decide
      hcur := by decide, heven := by decide }

/-- A four-block state: free blocks at 64 and 152 (80 bytes each), an
allocated block at 240, the sentinel at 960. -/
def w7Mem : Nat → Nat :=
  fun x => if x = 64 then 153 else if x = 152 then 241 else
    if x = 240 then 960 else if x = 960 then 64 else 0

def w7State : MMState := ⟨w7Mem, 64, 64, 960⟩

theorem w7Valid : Valid 64 1024 w7State [64, 152, 240, 960] := by
  refine
    { hms := by decide, hme := by norm_num [M], hcap := by decide
      hfirst := by decide, hlast := by decide
      hhead := rfl, hgetLast := rfl
      hchain := ?_
      hwrap := by decide, hlastfree := by decide
      hcur := by decide, heven := by decide }
  refine List.chain'_cons.mpr ⟨⟨by decide, by decide⟩, ?_⟩
  refine List.chain'_cons.mpr ⟨⟨by decide, by decide⟩, ?_⟩
  exact List.chain'_cons.mpr ⟨⟨by decide, by decide⟩, List.chain'_singleton _⟩

/-- The §8 scenario run: three 80-byte allocations from a fresh arena
`[64, 1024)`, release of the first and third, then a fourth 80-byte
allocation. -/
def c3r1 : Option (Option Nat × MMState) := simple_malloc 64 1024 16 zeroState 80
def c3p1 : Option Nat := (c3r1.getD (none, zeroState)).1
def c3s1 : MMState := (c3r1.getD (none, zeroState)).2
def c3r2 : Option (Option Nat × MMState) := simple_malloc 64 1024 16 c3s1 80
def c3p2 : Option Nat := (c3r2.getD (none, zeroState)).1
def c3s2 : MMState := (c3r2.getD (none, zeroState)).2
def c3r3 : Option (Option Nat × MMState) := simple_malloc 64 1024 16 c3s2 80
def c3p3 : Option Nat := (c3r3.getD (none, zeroState)).1
def c3s3 : MMState := (c3r3.getD (none, zeroState)).2
def c3s4 : MMState := simple_free c3s3 72
def c3s5 : MMState := simple_free c3s4 248
def c3r6 : Option (Option Nat × MMState) := simple_malloc 64 1024 16 c3s5 80
def c3p4 : Option Nat := (c3r6.getD (none, zeroState)).1

/-! ## The claims -/

/-- C1: for every sequence of Allocate and Release calls (from a sane arena),
the byte ranges `[pointer, pointer + granted size)` of the allocations that
are concurrently live are pairwise disjoint. -/
theorem C1_live_ranges_disjoint {ms me : Nat} {st : MMState}
    {live : List (Nat × Nat)} (hs : Sane ms me) (h : Reach ms me st live) :
    live.Pairwise (fun x y => x.1 + x.2 ≤ y.1 ∨ y.1 + y.2 ≤ x.1) := by
  rcases reach_inv hs h with ⟨_, hl⟩ | ⟨bs, v, hinv⟩
  · subst hl
    exact List.Pairwise.nil
  · refine List.Pairwise.imp_of_mem ?_ hinv.2
    intro x y hx hy hne
    obtain ⟨bx, hbx, hx1, hxL, _, hx2⟩ := hinv.1 x hx
    obtain ⟨cy, hcy, hy1, hyL, _, hy2⟩ := hinv.1 y hy
    have hbc : bx ≠ cy := by
      intro he
      rw [hx1, hy1, he] at hne
      exact hne rfl
    rcases Nat.lt_or_ge bx cy with hlt | hge
    · left
      have := block_end_le v hbx hcy hlt hxL
      omega
    · right
      have hlt' : cy < bx := by omega
      have := block_end_le v hcy hbx hlt' hyL
      omega

/-- C1 witness: a concrete two-allocation trace from the arena `[64, 1024)`;
the two live ranges are disjoint. -/
theorem C1_witness :
    List.Pairwise (fun x y => x.1 + x.2 ≤ y.1 ∨ y.1 + y.2 ≤ x.1)
      [(160, SIZE c3s2.mem (sub64 160 hdrSize)),
        (72, SIZE c3s1.mem (sub64 72 hdrSize))] := by
  have h0 : Reach 64 1024 zeroState [] := Reach.start zeroMem 0 0
  have h1 : Reach 64 1024 c3s1 [(72, SIZE c3s1.mem (sub64 72 hdrSize))] :=
    Reach.allocOk zeroState [] 16 80 72 c3s1 h0 rfl
  have h2 : Reach 64 1024 c3s2
      [(160, SIZE c3s2.mem (sub64 160 hdrSize)),
        (72, SIZE c3s1.mem (sub64 72 hdrSize))] :=
    Reach.allocOk c3s1 _ 16 80 160 c3s2 h1 rfl
  exact C1_live_ranges_disjoint ⟨by decide, by norm_num [M], by decide⟩ h2

/-- C2 counterexample: `Allocate(0)` from a fresh arena returns the non-null
pointer 72 whose block is left with a zero-byte payload, below
`max(0, MIN_SIZE) = 8`: the code never rounds the request up to `MIN_SIZE`,
and `align_up(0, 8) = 0`. -/
theorem C2_counterexample :
    ((simple_malloc 64 1024 16 zeroState 0).map fun r => r.1) = some (some 72) ∧
    ((simple_malloc 64 1024 16 zeroState 0).map fun r =>
      SIZE r.2.mem (sub64 72 hdrSize)) = some 0 ∧
    ¬ max 0 MIN_SIZE ≤ 0 :=
  ⟨rfl, rfl, by decide⟩

/-- C2 (amended): for `1 ≤ size ≤ 2^64 - 8`, a successful Allocate grants a
payload of at least `max(size, MIN_SIZE)` bytes. -/
theorem C2_granted_at_least {ms me fuel size p : Nat} {st st' : MMState}
    {bs : List Nat} (v : Valid ms me st bs) (h1 : 1 ≤ size)
    (h2 : size + 8 ≤ M)
    (h : simple_malloc ms me fuel st size = some (some p, st')) :
    max size MIN_SIZE ≤ SIZE st'.mem (sub64 p hdrSize) := by
  obtain ⟨t, bs', hp, htmem, _, _, _, _, _, hsize, _⟩ := malloc_success v h
  have hsubp : sub64 p hdrSize = t := by
    rw [hp]
    exact v.sub64_payload htmem
  rw [hsubp]
  have ha1 := align_up_ge size h2
  have ha2 := align_up_min8 size h1 h2
  have hm : MIN_SIZE = 8 := rfl
  exact max_le (by omega) (by omega)

/-- C2 witness: a 20-byte request served from the two-block state grants at
least `max(20, MIN_SIZE) = 20` bytes. -/
theorem C2_witness :
    max 20 MIN_SIZE ≤
      SIZE ((simple_malloc 64 1024 2 wState 20).getD (none, zeroState)).2.mem
        (sub64 72 hdrSize) :=
  C2_granted_at_least wValid (by norm_num) (by norm_num [M])
    (show simple_malloc 64 1024 2 wState 20 =
      some (some 72, ((simple_malloc 64 1024 2 wState 20).getD
        (none, zeroState)).2) from rfl)

/-- C3: the §8 scenario: three 80-byte allocations give 72, 160, 248; after
releasing the first and third, the next 80-byte allocation returns 336 — not
the freed 72 (not first-fit) and at or after 248 — because the roving cursor
was left at 328, the successor of the block serving 248. -/
theorem C3_next_fit_scenario :
    c3p1 = some 72 ∧ c3p2 = some 160 ∧ c3p3 = some 248 ∧ c3p4 = some 336 ∧
    c3p4 ≠ c3p1 ∧ c3s3.current = 328 ∧ 248 ≤ 336 :=
  ⟨rfl, rfl, rfl, rfl, by decide, rfl, by decide⟩

/-- C4: from a well-formed state, the search loop of Allocate finishes within
one iteration per block of the arena — fuel `bs.length` always produces a
result, even though coalescing splices blocks out of the list mid-walk
(Release is a straight-line total function, so only Allocate needs a bound). -/
theorem C4_allocate_terminates {ms me : Nat} {st : MMState}
    {bs : List Nat} (v : Valid ms me st bs) (fuel size : Nat)
    (hfuel : bs.length ≤ fuel) :
    ∃ r, simple_malloc ms me fuel st size = some r :=
  malloc_total v hfuel

/-- C4 witness: two units of fuel settle an allocation from the two-block
state. -/
theorem C4_witness : ∃ r, simple_malloc 64 1024 2 wState 8 = some r :=
  C4_allocate_terminates wValid 2 8 (by decide)

/-- C5: with `memory_start = 1`, initialization computes the arena start as
`1 + 1 % 64 = 2` (not an align-up), so Allocate returns the pointer 10,
which is not a multiple of the word size: the claimed alignment fails. -/
theorem C5_unaligned_pointer :
    ((simple_malloc 1 1024 16 zeroState 8).map fun r => r.1) = some (some 10) ∧
    10 % 8 ≠ 0 :=
  ⟨rfl, by decide⟩

/-- C6: when Allocate serves a request from an adequate free block
(`align_up size ≤ SIZE`), then either the leftover is below one header plus
the minimum payload and the block is consumed whole — only its free bit
changes — or a new free header is placed at `block + header + aligned size`,
linked to the old successor, or past it when that successor is itself
free. -/
theorem C6_carve {ms me fuel size p : Nat} {st st' : MMState} {bs : List Nat}
    (v : Valid ms me st bs)
    (h : simple_malloc ms me fuel st size = some (some p, st'))
    (hadq : align_up size hdrSize ≤ SIZE st.mem (sub64 p hdrSize)) :
    (SIZE st.mem (sub64 p hdrSize) - align_up size hdrSize <
        hdrSize + MIN_SIZE ∧
      st'.mem = update st.mem (sub64 p hdrSize)
        (SET_FREE (st.mem (sub64 p hdrSize)) false)) ∨
    (hdrSize + MIN_SIZE ≤
        SIZE st.mem (sub64 p hdrSize) - align_up size hdrSize ∧
      GET_NEXT (st'.mem (sub64 p hdrSize)) =
        sub64 p hdrSize + hdrSize + align_up size hdrSize ∧
      GET_FREE (st'.mem (sub64 p hdrSize + hdrSize + align_up size hdrSize)) = 1 ∧
      GET_NEXT (st'.mem (sub64 p hdrSize + hdrSize + align_up size hdrSize)) =
        (if GET_FREE (st.mem (GET_NEXT (st.mem (sub64 p hdrSize)))) = 1
         then GET_NEXT (st.mem (GET_NEXT (st.mem (sub64 p hdrSize))))
         else GET_NEXT (st.mem (sub64 p hdrSize))) ∧
      (∀ x, x ≠ sub64 p hdrSize →
        x ≠ sub64 p hdrSize + hdrSize + align_up size hdrSize →
        st'.mem x = st.mem x)) := by
  obtain ⟨t, bs', hp, htmem, hfree, _, _, _, _, _, _, _, _, hdet⟩ :=
    malloc_success v h
  have hsubp : sub64 p hdrSize = t := by
    rw [hp]
    exact v.sub64_payload htmem
  rw [hsubp] at hadq ⊢
  rcases hdet with ⟨ha, hlt, hmem, _⟩ | ⟨ha, hge, h1, h2, h3, h4, _⟩ |
    ⟨hlt, _, _, _⟩
  · exact Or.inl ⟨hlt, hmem⟩
  · exact Or.inr ⟨hge, h1, h2, h3, h4⟩
  · exact absurd hadq (by omega)

/-- C6 witness: the 20-byte request from the two-block state splits the free
block at 64: the new free header lands at `64 + 8 + 24`. -/
theorem C6_witness :
    GET_NEXT ((((simple_malloc 64 1024 2 wState 20).getD
        (none, zeroState)).2).mem (sub64 72 hdrSize)) =
      sub64 72 hdrSize + hdrSize + align_up 20 hdrSize := by
  rcases C6_carve wValid
      (show simple_malloc 64 1024 2 wState 20 =
        some (some 72, ((simple_malloc 64 1024 2 wState 20).getD
          (none, zeroState)).2) from rfl)
      (by decide) with ⟨hlt, _⟩ | ⟨_, h1, _⟩
  · exact absurd hlt (by decide)
  · exact h1

/-- C7: if a free block and its free successor together span the (rounded)
request, the next Allocate succeeds: two address-adjacent free blocks are
never left permanently unmergeable. -/
theorem C7_adjacent_free_merge {ms me fuel size : Nat} {st : MMState}
    {bs : List Nat} (v : Valid ms me st bs) {b : Nat} (hb : b ∈ bs)
    (hfree : GET_FREE (st.mem b) = 1)
    (hnf : GET_FREE (st.mem (GET_NEXT (st.mem b))) = 1)
    (hfit : align_up size hdrSize ≤
      SIZE st.mem b + hdrSize + SIZE st.mem (GET_NEXT (st.mem b)))
    (hfuel : bs.length ≤ fuel) :
    ∃ p st', simple_malloc ms me fuel st size = some (some p, st') := by
  apply malloc_succeeds_of_trigger v hfuel
  refine ⟨b, hb, hfree, ?_⟩
  by_cases hge : align_up size hdrSize ≤ SIZE st.mem b
  · exact Or.inl hge
  · right
    obtain ⟨xs, d, rest, hbs, hnext, hgap⟩ :=
      v.split_at hb (v.free_ne_last hfree)
    have hd_mem : d ∈ bs := by rw [hbs]; simp
    have hd_M : d < M := v.mem_lt_M hd_mem
    have hdf : GET_FREE (st.mem d) = 1 := by rw [← hnext]; exact hnf
    obtain ⟨xs2, e, rest2, hbs2, hde, hde_gap⟩ :=
      v.split_at hd_mem (v.free_ne_last hdf)
    have he_mem : e ∈ bs := by rw [hbs2]; simp
    have he_M : e < M := v.mem_lt_M he_mem
    have hS : SIZE st.mem b = d - b - 8 := SIZE_of_next hnext hgap hd_M
    have hSd : SIZE st.mem d = e - d - 8 := SIZE_of_next hde hde_gap he_M
    refine ⟨by rw [hnext]; have := v.mem_pos hd_mem; omega, hnf, ?_⟩
    rw [hnext]
    have hsum : (SIZE st.mem b + SIZE st.mem d + hdrSize) % M = e - b - 8 := by
      unfold hdrSize
      rw [hS, hSd, show d - b - 8 + (e - d - 8) + 8 = e - b - 8 by omega]
      exact Nat.mod_eq_of_lt (by omega)
    rw [hsum]
    rw [hnext] at hfit
    rw [hS, hSd] at hfit
    have h8 : hdrSize = 8 := rfl
    omega

/-- C7 witness: from the four-block state with adjacent 80-byte free blocks
at 64 and 152, a 100-byte request (needing their merged span) succeeds. -/
theorem C7_witness :
    ∃ p st', simple_malloc 64 1024 4 w7State 100 = some (some p, st') :=
  C7_adjacent_free_merge w7Valid (b := 64) (by decide) (by decide) (by decide)
    (by decide) (by decide)

/-- C8 counterexample: the very first Allocate call can fail and still have
side effects, because it lazily initializes the arena: from the pristine
state, a 2000-byte request returns null yet the roving cursor moves from 0
to 64 and a header is written at 64. -/
theorem C8_counterexample :
    ((simple_malloc 64 1024 16 zeroState 2000).map fun r => r.1) = some none ∧
    ((simple_malloc 64 1024 16 zeroState 2000).map fun r => r.2.current) =
      some 64 ∧
    zeroState.current = 0 ∧
    ((simple_malloc 64 1024 16 zeroState 2000).map fun r => r.2.mem 64) =
      some 961 ∧
    zeroState.mem 64 = 0 :=
  ⟨rfl, rfl, rfl, rfl, rfl⟩

/-- C8 (amended): once the allocator is initialized (any well-formed state),
a null-returning Allocate has no side effects at all: the resulting state is
the input state, cursor included. -/
theorem C8_fail_no_side_effects {ms me fuel size : Nat} {st st' : MMState}
    {bs : List Nat} (v : Valid ms me st bs)
    (h : simple_malloc ms me fuel st size = some (none, st')) : st' = st :=
  malloc_fail v h

/-- C8 witness: a failing 2000-byte request from the two-block state returns
exactly that state. -/
theorem C8_witness :
    ((simple_malloc 64 1024 2 wState 2000).getD (none, zeroState)).2 = wState :=
  C8_fail_no_side_effects wValid
    (show simple_malloc 64 1024 2 wState 2000 =
      some (none, ((simple_malloc 64 1024 2 wState 2000).getD
        (none, zeroState)).2) from rfl)

/-- C9: the state established by `simple_init` with arena `[64, 1024)`: the
links are circular (`first → last → first`), the cursor is at `first`, and
`first` is free — but `last` sits at 960 = aligned end − 64 (the
`(BlockHeader *) aligned_memory_end - sizeof(BlockHeader)` pointer
arithmetic scales by `sizeof`), not at 1016 = aligned end − one header, so
`first` spans 888 bytes, not the claimed capacity minus two headers
(944). -/
theorem C9_init_state :
    (simple_init 64 1024 zeroState).first = 64 ∧
    (simple_init 64 1024 zeroState).current = 64 ∧
    (simple_init 64 1024 zeroState).last = 960 ∧
    GET_FREE ((simple_init 64 1024 zeroState).mem 64) = 1 ∧
    GET_NEXT ((simple_init 64 1024 zeroState).mem 64) = 960 ∧
    GET_NEXT ((simple_init 64 1024 zeroState).mem 960) = 64 ∧
    GET_FREE ((simple_init 64 1024 zeroState).mem 960) = 0 ∧
    SIZE (simple_init 64 1024 zeroState).mem 64 = 888 ∧
    alignedEnd 1024 - alignedStart 64 - 2 * hdrSize = 944 ∧ (888 : Nat) ≠ 944 ∧
    alignedEnd 1024 - hdrSize = 1016 ∧ (960 : Nat) ≠ 1016 :=
  ⟨rfl, rfl, rfl, rfl, rfl, rfl, rfl, rfl, by decide, by decide, by decide,
    by decide⟩

/-- C10: Release performs no coalescing and no cursor movement: releasing
null or an already-free block changes nothing, and releasing an allocated
block flips only that one header's free bit — its successor link, every
other address, and the globals are untouched. -/
theorem C10_release_frame :
    (∀ st : MMState, simple_free st 0 = st) ∧
    (∀ (st : MMState) (p : Nat), p ≠ 0 →
      GET_FREE (st.mem (sub64 p hdrSize)) = 1 → simple_free st p = st) ∧
    (∀ (st : MMState) (p : Nat), p ≠ 0 →
      GET_FREE (st.mem (sub64 p hdrSize)) = 0 →
      simple_free st p =
        { st with
            mem := update st.mem (sub64 p hdrSize)
              (SET_FREE (st.mem (sub64 p hdrSize)) true) } ∧
      GET_FREE (SET_FREE (st.mem (sub64 p hdrSize)) true) = 1 ∧
      GET_NEXT (SET_FREE (st.mem (sub64 p hdrSize)) true) =
        GET_NEXT (st.mem (sub64 p hdrSize)) ∧
      ∀ q, q ≠ sub64 p hdrSize →
        update st.mem (sub64 p hdrSize)
          (SET_FREE (st.mem (sub64 p hdrSize)) true) q = st.mem q) := by
  refine ⟨free_null, fun st p h hf => free_already h hf, ?_⟩
  intro st p h hf
  refine ⟨free_alloc h hf, ?_, GET_NEXT_SET_FREE _ _, ?_⟩
  · rw [GET_FREE_SET_FREE]
    rfl
  · intro q hq
    exact update_ne _ _ _ _ hq

/-- C10 witness: releasing the allocated block at 960 of the two-block state
(payload pointer 968) flips only its free bit; null-release is the
identity. -/
theorem C10_witness :
    simple_free wState 0 = wState ∧
    simple_free wState 968 =
      { wState with
          mem := update wState.mem (sub64 968 hdrSize)
            (SET_FREE (wState.mem (sub64 968 hdrSize)) true) } ∧
    GET_FREE (SET_FREE (wState.mem (sub64 968 hdrSize)) true) = 1 ∧
    GET_NEXT (SET_FREE (wState.mem (sub64 968 hdrSize)) true) =
      GET_NEXT (wState.mem (sub64 968 hdrSize)) ∧
    update wState.mem (sub64 968 hdrSize)
      (SET_FREE (wState.mem (sub64 968 hdrSize)) true) 64 = wState.mem 64 := by
  obtain ⟨h1, _, h3⟩ := C10_release_frame
  have h4 := h3 wState 968 (by decide) (by decide)
  exact ⟨h1 wState, h4.1, h4.2.1, h4.2.2.1, h4.2.2.2 64 (by decide)⟩

end MM
